import Mathlib

/-!
Verification of the simplex solver (`simplex/tableau.py`, `simplex/solver.py`).

The tableau is embedded as a total entry function `e : ℕ → ℕ → ℚ` together
with the dimensions `m` (constraint rows; the tableau has rows `0..m`, row 0
being the objective row) and `w` (non-RHS columns; the tableau has columns
`0..w`, column `w` being the right-hand-side column).  Entries outside the
declared ranges are junk and are never read by any operation below.  The
source stores IEEE doubles; the claims under study are about the exact
structural pivoting semantics, so entries are modelled as rationals.
-/

/-- Tableau: rows `0..m` (row 0 = negated reduced costs and objective value),
columns `0..w` (column `w` = right-hand side).  Mirrors `Tableau.tab` with
`shape = (m, n)`; `w` is the current number of non-RHS columns (`n`, or
`n + a` while artificial columns are present). -/
structure Tab where
  m : ℕ
  w : ℕ
  e : ℕ → ℕ → ℚ

/-- Terminal states of the tableau, as mapped from the three exceptions by
`Tableau.__exit__`. -/
inductive TState
  | Optimal
  | Unbounded
  | Infeasible
deriving DecidableEq, Repr

/-- Builds a `Tab` from row-major data, for concrete instances. -/
def mkTab (m w : ℕ) (rows : List (List ℚ)) : Tab :=
  ⟨m, w, fun i j => (rows.getD i []).getD j 0⟩

/-- Row 0 without the RHS entry, i.e. `self.tab[0][:-1]`. -/
def objRowList (t : Tab) : List ℚ :=
  (List.range t.w).map (t.e 0)

/-- The RHS column of the constraint rows, i.e. `self.tab[1:, -1]`
(the `solution` property of the source). -/
def rhsList (t : Tab) : List ℚ :=
  (List.range t.m).map (fun i => t.e (i + 1) t.w)

/-- `np.all(self.tab[1:, -1] >= 0)`. -/
def allRhsNonneg (t : Tab) : Bool :=
  (List.range t.m).all (fun i => 0 ≤ t.e (i + 1) t.w)

/-- Index of the first negative entry of a list:
`np.argwhere(v < 0).min()`, with `none` for the `ValueError` case. -/
def firstNegIdx : List ℚ → Option ℕ
  | [] => none
  | x :: xs => if x < 0 then some 0 else (firstNegIdx xs).map (· + 1)

/-- First index at which a list attains its minimum: `np.argmin`
(0 on the empty list, where numpy would raise). -/
def argminIdx {α : Type} [LinearOrder α] : List α → ℕ
  | [] => 0
  | [_] => 0
  | x :: y :: ys =>
    let j := argminIdx (y :: ys)
    if x ≤ (y :: ys).getD j x then 0 else j + 1

/-- Greatest `j < n` with `p j = true`.  The source's `basis` property loops
over the columns in ascending order and keeps overwriting `basis[i]`, so the
recorded index is the last (greatest) matching one. -/
def lastMatch (p : ℕ → Bool) : ℕ → Option ℕ
  | 0 => none
  | n + 1 => if p n then some n else lastMatch p n

/-- Column `j` is the unit vector with a `1` in row `i` and `0` in all other
rows `0..m` (row 0 included): the match tested by the `basis` property
against `np.identity(m + 1)[1:]`. -/
def isUnitCol (t : Tab) (j i : ℕ) : Bool :=
  (List.range (t.m + 1)).all (fun k => t.e k j == if k == i then (1 : ℚ) else 0)

/-- The column recorded by the `basis` property for constraint row `i`
(0-based): the greatest matching column index over ALL columns of
`self.tab.T`, the RHS column included (`j` ranges over `0..w`). -/
def basisIdx (t : Tab) (i : ℕ) : Option ℕ :=
  lastMatch (fun j => isUnitCol t j (i + 1)) (t.w + 1)

/-- The `basis` property: for each constraint row, the recorded column index,
or `-1` when no column matches. -/
def tabBasis (t : Tab) : List ℤ :=
  (List.range t.m).map (fun i =>
    match basisIdx t i with
    | some j => (j : ℤ)
    | none => -1)

/-- Entering-variable selection of `Tableau.pivot`:
`none` when row 0 (RHS excluded) has no negative entry; otherwise the first
negative index under Bland's rule, and the argmin of row 0 otherwise. -/
def enteringVar (t : Tab) (useBlandsRule : Bool) : Option ℕ :=
  match firstNegIdx (objRowList t) with
  | none => none
  | some jB => some (if useBlandsRule then jB else argminIdx (objRowList t))

/-- The minimum-ratio list: entry `i` is `RHS(i) / coeff(i)` when the
entering column's coefficient in constraint row `i` is `> 0`, and the `+∞`
sentinel (`⊤`) otherwise — `np.divide(..., out=inf, where=col > 0)`. -/
def ratioList (t : Tab) (c : ℕ) : List (WithTop ℚ) :=
  (List.range t.m).map (fun i =>
    if 0 < t.e (i + 1) c then ((t.e (i + 1) t.w / t.e (i + 1) c : ℚ) : WithTop ℚ) else ⊤)

/-- Departing-row selection of `Tableau.pivot` (0-based constraint row,
before the `+ 1` offset): `ratios.argmin()`, then under Bland's rule the
re-selection `basis.index(min(basis[ratios == val]))`. -/
def departingVar (t : Tab) (c : ℕ) (useBlandsRule : Bool) : ℕ :=
  let ratios := ratioList t c
  let d0 := argminIdx ratios
  if useBlandsRule then
    let val := ratios.getD d0 ⊤
    let b := tabBasis t
    let tiedVals := ((List.range t.m).filter (fun i => ratios.getD i ⊤ == val)).map
      (fun i => b.getD i (-1))
    b.indexOf (tiedVals.min?.getD (-1))
  else d0

/-- `Tableau._pivot_around(r, c)`: divide row `r` by the pivot entry, then
subtract from every other row (row 0 included) that row's column-`c` value
times the normalised pivot row.  The source builds the whole subtrahend list
before the in-place `-=`, and subtracts zero from row `r` itself, so the
update is the simultaneous one written here. -/
def pivotAround (t : Tab) (r c : ℕ) : Tab :=
  ⟨t.m, t.w, fun i j =>
    if i = r then t.e r j / t.e r c
    else t.e i j - (t.e r j / t.e r c) * t.e i c⟩

/-- One call of `Tableau.pivot`: returns the (possibly updated) tableau and
the terminal state when one of the three exceptions is raised.  All checks
(`ReachedOptimality` / `InfeasibleProblem` on an all-nonnegative row 0, and
`UnboundedProblem` on a nonpositive pivot entry) happen before
`_pivot_around` mutates the matrix. -/
def pivotStepT (t : Tab) (useBlandsRule : Bool) : Tab × Option TState :=
  match enteringVar t useBlandsRule with
  | none =>
    (t, some (if allRhsNonneg t then TState.Optimal else TState.Infeasible))
  | some c =>
    let d := departingVar t c useBlandsRule
    if t.e (d + 1) c ≤ 0 then (t, some TState.Unbounded)
    else (pivotAround t (d + 1) c, none)

/-- The `while iterations < max_iterations: t.pivot(...)` loop of
`SimplexSolver.solve`: pivots until a terminal exception or until the budget
is spent, returning the final tableau, the number of completed (mutating)
pivots and the terminal state (`none` when the budget ran out). -/
def runPivots (useBlandsRule : Bool) : Tab → ℕ → Tab × ℕ × Option TState
  | t, 0 => (t, 0, none)
  | t, b + 1 =>
    match pivotStepT t useBlandsRule with
    | (t', some st) => (t', 0, some st)
    | (t', none) =>
      let r := runPivots useBlandsRule t' b
      (r.1, r.2.1 + 1, r.2.2)

/-- The phase-1 reduced cost of a column, `np.dot(new_basic_cost, r[1:])`
with `new_basic_cost = -1 * (basis == -1)`: the negated sum of the column's
entries over the constraint rows that lack a basic variable. -/
def phase1Cost (t : Tab) (j : ℕ) : ℚ :=
  ∑ i in Finset.range t.m,
    (if (tabBasis t).getD i 0 = -1 then (-1 : ℚ) else 0) * t.e (i + 1) j

/-- `Tableau.add_artificial_variables()`: rewrite row 0 to the phase-1
reduced costs (over the pre-existing columns, RHS included), then insert one
unit column per basis-lacking constraint row just before the RHS column.
Returns the new tableau and `self.artificial_vars = range(w, w + a)`
(the method is only invoked on a pristine tableau, where `shape[1] = w`). -/
def missingRows (t : Tab) : List ℕ :=
  (List.range t.m).filter (fun i => (tabBasis t).getD i 0 == -1)

def addArtificials (t : Tab) : Tab × List ℕ :=
  let a := (missingRows t).length
  let w' := t.w + a
  (⟨t.m, w', fun i j =>
      if j < t.w then (if i = 0 then phase1Cost t j else t.e i j)
      else if j < w' then (if i = (missingRows t).getD (j - t.w) 0 + 1 then 1 else 0)
      else (if i = 0 then phase1Cost t t.w else t.e i t.w)⟩,
   List.range' t.w a)

/-- Result of `Tableau.drop_artificial_variables()`.  `crash` stands for an
uncaught Python exception: the source's check `if self.tab[v][-1] > 0` reads
the undefined name `v`, so any artificial variable still in the basis raises
`NameError` (the `InfeasibleProblem` branch below it is unreachable), and the
subsequent `costs = [self.obj_func[i] for i in self.basis]` raises
`IndexError` when a recomputed basis index falls outside the objective
vector. -/
inductive DropRes
  | crash
  | ok (t2 : Tab)

/-- Python list indexing `l[i]`: negative indices wrap once from the end;
`none` models the `IndexError` for an out-of-range index. -/
def pyGet (l : List ℚ) (i : ℤ) : Option ℚ :=
  if 0 ≤ i then l.get? i.toNat
  else if 0 ≤ i + l.length then l.get? (i + l.length).toNat
  else none

/-- The entry of `self.obj_func + [0]` zipped against column `j` of the
width-`n` tableau in the phase-2 cost rewrite. -/
def objExt (obj : List ℚ) (n j : ℕ) : ℚ :=
  if j < n then obj.getD j 0 else 0

/-- `np.delete(self.tab, drop_cols, axis=1)` for the contiguous block of `a`
artificial columns sitting just before the RHS column: columns left of the
block keep their index, the RHS column shifts down by `a`. -/
def delCols (t1 : Tab) (a : ℕ) : Tab :=
  ⟨t1.m, t1.w - a, fun i j => if j < t1.w - a then t1.e i j else t1.e i (j + a)⟩

/-- `costs = [self.obj_func[i] for i in self.basis]`, evaluated on the
column-deleted tableau; `none` marks an `IndexError`. -/
def dropCosts (t1 : Tab) (avs : List ℕ) (obj : List ℚ) : List (Option ℚ) :=
  (tabBasis (delCols t1 avs.length)).map (fun v => pyGet obj v)

/-- The column-deleted tableau with row 0 rewritten to
`np.dot(costs, r[1:]) - c` for `c, r` in `zip(obj_func + [0], tab.T)`. -/
def dropTab (t1 : Tab) (avs : List ℕ) (obj : List ℚ) : Tab :=
  ⟨t1.m, t1.w - avs.length, fun i j =>
    if i = 0 then
      (∑ k in Finset.range t1.m,
        ((dropCosts t1 avs obj).map (fun o => o.getD 0)).getD k 0 *
          (delCols t1 avs.length).e (k + 1) j) -
        objExt obj (t1.w - avs.length) j
    else (delCols t1 avs.length).e i j⟩

/-- `Tableau.drop_artificial_variables()`: crash (NameError) as soon as any
basis entry is an artificial index; otherwise delete the artificial columns
`avs = range(n, n + a)` and rewrite row 0 to
`dot(costs, col[1:]) - (obj_func + [0])[j]` with
`costs = [obj_func[i] for i in basis]` (crash on an `IndexError` there). -/
def dropArtificials (t1 : Tab) (avs : List ℕ) (obj : List ℚ) : DropRes :=
  if (tabBasis t1).any (fun v => avs.any (fun x => (x : ℤ) == v)) then .crash
  else if (dropCosts t1 avs obj).any (fun o => o.isNone) then .crash
  else .ok (dropTab t1 avs obj)

/-- Objective value of a `Solution`: finite for Optimal, the `np.inf`
sentinel for Unbounded, the `np.NaN` sentinel for Infeasible. -/
inductive ObjVal
  | q (x : ℚ)
  | posInf
  | nan
deriving DecidableEq, Repr

/-- The structured `Solution` built by `Solution.__init__`. -/
structure Solution where
  state : TState
  objValue : ObjVal
  assignment : Option (List ℚ)
deriving DecidableEq, Repr

/-- `max(basis)` (the default `-1` is unreachable: `basis` is nonempty
whenever `m ≥ 1`, and Python's `max` raises on an empty list). -/
def pyMax (b : List ℤ) : ℤ :=
  b.max?.getD (-1)

/-- Python list assignment `l[i] = v`: a negative index wraps once from the
end; an out-of-range assignment is a no-op here (Python raises IndexError,
which is unreachable for the basis vectors of a terminal optimal tableau). -/
def pySet (l : List ℚ) (i : ℤ) (v : ℚ) : List ℚ :=
  if 0 ≤ i then l.set i.toNat v else l.set (i + l.length).toNat v

/-- The Optimal-state assignment of `Solution.__init__`: start from the zero
vector of length `max(basis) + 1` and execute
`for i, j in zip(basis, solution): self.solution[i] = j`. -/
def mkAssignment (b : List ℤ) (rhs : List ℚ) : List ℚ :=
  (b.zip rhs).foldl (fun l p => pySet l p.1 p.2)
    (List.replicate (pyMax b + 1).toNat 0)

/-- `Solution.__init__` applied to the terminal tableau data
(`state=t.state, basis=t.basis, solution=t.solution, obj_value=t.obj_value`). -/
def mkSolution (st : TState) (t : Tab) : Solution :=
  { state := st
    objValue := match st with
      | .Optimal => .q (t.e 0 t.w)
      | .Unbounded => .posInf
      | .Infeasible => .nan
    assignment := match st with
      | .Optimal => some (mkAssignment (tabBasis t) (rhsList t))
      | _ => none }

/-- Result of `SimplexSolver.solve`: a returned `Solution`, the raised
`UnsolvableError(max_iterations)`, the uncaught crash out of
`drop_artificial_variables`, or exhaustion of the recursion fuel (an
artifact of the embedding; the Python recursion depth is bounded by the
dynamic basis-completeness invariants proved below). -/
inductive SolveRes
  | sol (s : Solution)
  | unsolvable (budget : ℕ)
  | cleanupCrash
  | fuelOut
deriving DecidableEq, Repr

/-- Trace of one `solve` call: its result, the final tableau, the number of
completed pivots across all nested calls, and the number of
`add_artificial_variables` (phase-1) invocations. -/
structure SRun where
  res : SolveRes
  tab : Tab
  pivots : ℕ
  phases : ℕ

/-- `if not sol.solution: return sol` — the phase-2 path is taken only when
the phase-1 solution is a truthy (nonempty) assignment list. -/
def truthyAssignment : Option (List ℚ) → Bool
  | some (_ :: _) => true
  | _ => false

/-- The pivot loop of one `solve` frame followed by the anti-cycling retry:
iterate up to `maxIter` pivots; on a terminal state build the `Solution`;
otherwise, if Bland's rule was already on, raise
`UnsolvableError(max_iterations)`, and if not, re-enter the full solve
(passed in as `retry`) with Bland's rule forced on — and, faithfully to the
source, with `max_iterations` left at its default of `100`. -/
def solveLoopStep (retry : Tab → SRun) (t0 : Tab) (maxIter : ℕ)
    (useBlandsRule : Bool) : SRun :=
  match runPivots useBlandsRule t0 maxIter with
  | (t', kp, some st) => ⟨.sol (mkSolution st t'), t', kp, 0⟩
  | (t', kp, none) =>
    if useBlandsRule then ⟨.unsolvable maxIter, t', kp, 0⟩
    else
      let r2 := retry t'
      ⟨r2.res, r2.tab, kp + r2.pivots, r2.phases⟩

/-- The two-phase arm of `solve`: inspect the phase-1 result `r1`; a falsy
assignment (`if not sol.solution`) is returned to the caller unchanged; an
optimal phase-1 run drops the artificial columns (possibly crashing) and
falls through to the phase-2 pivot loop. -/
def phaseCont (obj : List ℚ) (retry : Tab → SRun) (avs : List ℕ) (r1 : SRun)
    (maxIter : ℕ) (useBlandsRule : Bool) : SRun :=
  match r1.res with
  | .sol s =>
    if truthyAssignment s.assignment then
      match dropArtificials r1.tab avs obj with
      | .crash => ⟨.cleanupCrash, r1.tab, r1.pivots, r1.phases + 1⟩
      | .ok t2 =>
        let r3 := solveLoopStep retry t2 maxIter useBlandsRule
        ⟨r3.res, r3.tab, r1.pivots + r3.pivots, r1.phases + 1 + r3.phases⟩
    else ⟨.sol s, r1.tab, r1.pivots, r1.phases + 1⟩
  | _ => ⟨r1.res, r1.tab, r1.pivots, r1.phases + 1⟩

/-- `SimplexSolver.solve(max_iterations, use_blands_rule)` over the shared
mutable tableau, with `obj` the `Tableau.obj_func` stored at construction.
Faithful points: the phase-1 recursion `self.solve(max_iterations=...)`
resets Bland's rule to `False`; the anti-cycling retry
`self.solve(use_blands_rule=True)` re-enters the full solve (basis check
included) and leaves `max_iterations` at its default of `100`; a terminal
exception from the pivot loop is mapped by the context manager to a state
and the `Solution` is built from the current tableau.  The fuel argument
models the recursion depth; `fuelOut` is an artifact of the embedding. -/
def solveFuel (obj : List ℚ) : ℕ → Tab → ℕ → Bool → SRun
  | 0, t, _, _ => ⟨.fuelOut, t, 0, 0⟩
  | f + 1, t, maxIter, useBlandsRule =>
    if (tabBasis t).contains (-1) then
      phaseCont obj (fun tt => solveFuel obj f tt 100 true) (addArtificials t).2
        (solveFuel obj f (addArtificials t).1 maxIter false) maxIter useBlandsRule
    else solveLoopStep (fun tt => solveFuel obj f tt 100 true) t maxIter useBlandsRule

/-- Propositional form of `isUnitCol`: column `j` carries a `1` in row `i`
and `0` in every other row `0..m`. -/
def IsUnitColP (t : Tab) (j i : ℕ) : Prop :=
  ∀ k, k ≤ t.m → t.e k j = if k = i then 1 else 0

/-- The tableau has an identifiable basis: every constraint row owns some
unit column (the negation of `-1 in t.basis`). -/
def Complete (t : Tab) : Prop :=
  ∀ i, i < t.m → ∃ j, j ≤ t.w ∧ IsUnitColP t j (i + 1)

/-- `Tableau.__init__`: row 0 is the negated objective plus a `0` objective
value, rows `1..m` are the coefficient rows with the RHS appended. -/
def initTab (obj : List ℚ) (coeffs : List (List ℚ)) (rhs : List ℚ) : Tab :=
  mkTab rhs.length obj.length
    ((obj.map (fun v => -v) ++ [0]) :: (coeffs.zip rhs).map (fun p => p.1 ++ [p.2]))

/-- Objective vector of the concrete problem used against the iteration
bound: maximise `x1 + x2 + x3` over `xi ≤ 1` (slack variables included),
which the standard rule solves in exactly three pivots. -/
def exObj : List ℚ := [1, 1, 1, 0, 0, 0]

/-- Initial tableau of the three-pivot problem: an identity slack basis, so
no phase-1 is needed. -/
def exPC : Tab :=
  initTab exObj [[1, 0, 0, 1, 0, 0], [0, 1, 0, 0, 1, 0], [0, 0, 1, 0, 0, 1]] [1, 1, 1]

/-- Phase-1-terminal tableau with the artificial column 1 still basic at an
RHS value of 0 (`m = 1`, variable column 0, artificial column 1, RHS 0). -/
def exDrop : Tab := mkTab 1 2 [[0, 0, 0], [5, 1, 0]]

/-- Tableau whose RHS column is the unit vector of constraint row 1 while no
variable column is: `basis` records the RHS column index. -/
def exBasisRhs : Tab := mkTab 1 1 [[-1, 0], [2, 1]]

/-- Tableau with a basic column (column 1, basic in row 1) and a pivot taken
in that same row 1 at column 0 with pivot entry `2`. -/
def exPiv : Tab := mkTab 1 2 [[1, 0, 5], [2, 1, 4]]

/-- Optimal-shaped tableau (no negative reduced cost, nonnegative RHS) used
to witness the terminal branches. -/
def exOpt : Tab := mkTab 1 1 [[0, 7], [1, 4]]

/-- Tableau with negative reduced costs in columns 1 and 2, column 2 most
negative: Bland's rule and the standard rule pick different columns. -/
def exEnter : Tab := mkTab 1 3 [[2, -1, -3, 0], [1, 1, 1, 5]]

/-- Tableau with a tie in the minimum-ratio test (rows 0 and 1 both at ratio
2 for entering column 0) and basis `[1, 2]`. -/
def exRatio : Tab := mkTab 2 4 [[-1, 0, 0, 0, 0], [2, 1, 0, 0, 4], [1, 0, 1, 0, 2]]

/-- Terminal optimal tableau with basis `[0]`, used for the solution
builder: objective value 7, basic value 4 in row 1. -/
def exSol : Tab := mkTab 1 2 [[0, 0, 7], [1, 0, 4]]

/-! ### Generic lemmas on the index-scanning helpers -/

theorem getD_map_range {α : Type} (f : ℕ → α) {n i : ℕ} (h : i < n) (d : α) :
    ((List.range n).map f).getD i d = f i := by
  rw [List.getD_eq_getElem _ _ (by simpa using h)]
  simp

theorem getD_indep {α : Type} {l : List α} {i : ℕ} (h : i < l.length) (d d' : α) :
    l.getD i d = l.getD i d' := by
  rw [List.getD_eq_getElem _ _ h, List.getD_eq_getElem _ _ h]

theorem lastMatch_some {p : ℕ → Bool} {n j : ℕ} (h : lastMatch p n = some j) :
    j < n ∧ p j = true ∧ ∀ k, j < k → k < n → p k = false := by
  induction n with
  | zero => simp [lastMatch] at h
  | succ n ih =>
    by_cases hp : p n
    · rw [lastMatch, if_pos hp] at h
      obtain rfl : n = j := by simpa using h
      exact ⟨Nat.lt_succ_self n, hp, fun k hk1 hk2 => absurd hk2 (by omega)⟩
    · rw [lastMatch, if_neg hp] at h
      obtain ⟨h1, h2, h3⟩ := ih h
      refine ⟨h1.trans (Nat.lt_succ_self n), h2, fun k hk1 hk2 => ?_⟩
      rcases Nat.lt_succ_iff_lt_or_eq.mp hk2 with hk | rfl
      · exact h3 k hk1 hk
      · simpa using hp

theorem lastMatch_none {p : ℕ → Bool} {n : ℕ} (h : lastMatch p n = none) :
    ∀ j, j < n → p j = false := by
  induction n with
  | zero => omega
  | succ n ih =>
    by_cases hp : p n
    · rw [lastMatch, if_pos hp] at h
      exact absurd h (by simp)
    · rw [lastMatch, if_neg hp] at h
      intro j hj
      rcases Nat.lt_succ_iff_lt_or_eq.mp hj with hk | rfl
      · exact ih h j hk
      · simpa using hp

theorem firstNegIdx_none {l : List ℚ} (h : firstNegIdx l = none) :
    ∀ i, i < l.length → 0 ≤ l.getD i 0 := by
  induction l with
  | nil => simp
  | cons x xs ih =>
    rw [firstNegIdx] at h
    by_cases hx : x < 0
    · rw [if_pos hx] at h; exact absurd h (by simp)
    · rw [if_neg hx] at h
      intro i hi
      cases i with
      | zero => simpa using le_of_not_lt hx
      | succ i =>
        rw [List.getD_cons_succ]
        exact ih (by simpa using h) i (by simpa using hi)

theorem firstNegIdx_some {l : List ℚ} {j : ℕ} (h : firstNegIdx l = some j) :
    j < l.length ∧ l.getD j 0 < 0 ∧ ∀ i, i < j → 0 ≤ l.getD i 0 := by
  induction l generalizing j with
  | nil => simp [firstNegIdx] at h
  | cons x xs ih =>
    rw [firstNegIdx] at h
    by_cases hx : x < 0
    · rw [if_pos hx] at h
      obtain rfl : (0 : ℕ) = j := by simpa using h
      exact ⟨by simp, by simpa using hx, by omega⟩
    · rw [if_neg hx] at h
      rcases Option.map_eq_some'.mp h with ⟨j', hj', rfl⟩
      obtain ⟨h1, h2, h3⟩ := ih hj'
      refine ⟨by simpa using h1, by simpa using h2, fun i hi => ?_⟩
      cases i with
      | zero => simpa using le_of_not_lt hx
      | succ i => rw [List.getD_cons_succ]; exact h3 i (by omega)

theorem argminIdx_lt_length {α : Type} [LinearOrder α] {l : List α} (h : l ≠ []) :
    argminIdx l < l.length := by
  induction l with
  | nil => simp at h
  | cons x xs ih =>
    cases xs with
    | nil => simp [argminIdx]
    | cons y ys =>
      simp only [argminIdx]
      split
      · simp
      · have := ih (by simp)
        simpa using Nat.succ_lt_succ this

theorem argminIdx_le {α : Type} [LinearOrder α] (l : List α) (d : α) :
    ∀ i, i < l.length → l.getD (argminIdx l) d ≤ l.getD i d := by
  induction l with
  | nil => simp
  | cons x xs ih =>
    cases xs with
    | nil =>
      intro i hi
      obtain rfl : i = 0 := by simpa using hi
      simp [argminIdx]
    | cons y ys =>
      intro i hi
      have hjlt : argminIdx (y :: ys) < (y :: ys).length :=
        argminIdx_lt_length (by simp)
      simp only [argminIdx]
      split
      · rename_i hle
        rw [List.getD_cons_zero]
        cases i with
        | zero => simp
        | succ i =>
          rw [List.getD_cons_succ]
          calc x ≤ (y :: ys).getD (argminIdx (y :: ys)) x := hle
          _ = (y :: ys).getD (argminIdx (y :: ys)) d := getD_indep hjlt x d
          _ ≤ (y :: ys).getD i d := ih i (by simpa using hi)
      · rename_i hgt
        have hlt : (y :: ys).getD (argminIdx (y :: ys)) d < x := by
          have := lt_of_not_le hgt
          rwa [getD_indep hjlt x d] at this
        rw [List.getD_cons_succ]
        cases i with
        | zero => rw [List.getD_cons_zero]; exact le_of_lt hlt
        | succ i =>
          rw [List.getD_cons_succ]
          exact ih i (by simpa using hi)

theorem argminIdx_first {α : Type} [LinearOrder α] (l : List α) (d : α) :
    ∀ i, i < argminIdx l → l.getD (argminIdx l) d < l.getD i d := by
  induction l with
  | nil => simp [argminIdx]
  | cons x xs ih =>
    cases xs with
    | nil => simp [argminIdx]
    | cons y ys =>
      intro i hi
      have hjlt : argminIdx (y :: ys) < (y :: ys).length :=
        argminIdx_lt_length (by simp)
      simp only [argminIdx] at hi ⊢
      by_cases hc : x ≤ (y :: ys).getD (argminIdx (y :: ys)) x
      · rw [if_pos hc] at hi
        omega
      · rw [if_neg hc] at hi ⊢
        have hlt : (y :: ys).getD (argminIdx (y :: ys)) d < x := by
          have := lt_of_not_le hc
          rwa [getD_indep hjlt x d] at this
        rw [List.getD_cons_succ]
        cases i with
        | zero => simpa using hlt
        | succ i =>
          rw [List.getD_cons_succ]
          exact ih i (by omega)

/-! ### Unit columns, the derived basis and completeness -/

theorem ite_beq_eq {k i : ℕ} :
    (if k == i then (1 : ℚ) else 0) = if k = i then 1 else 0 := by
  by_cases h : k = i <;> simp [h]

theorem isUnitCol_iff {t : Tab} {j i : ℕ} :
    isUnitCol t j i = true ↔ IsUnitColP t j i := by
  simp only [isUnitCol, List.all_eq_true, List.mem_range, Nat.lt_succ_iff, beq_iff_eq,
    ite_beq_eq, IsUnitColP]

theorem tabBasis_length (t : Tab) : (tabBasis t).length = t.m := by
  simp [tabBasis]

theorem tabBasis_getD {t : Tab} {i : ℕ} (h : i < t.m) (d : ℤ) :
    (tabBasis t).getD i d =
      match basisIdx t i with
      | some j => (j : ℤ)
      | none => -1 := by
  unfold tabBasis
  rw [getD_map_range _ h]

theorem basisIdx_some {t : Tab} {i j : ℕ} (h : basisIdx t i = some j) :
    j ≤ t.w ∧ IsUnitColP t j (i + 1) ∧
      ∀ k, j < k → k ≤ t.w → ¬ IsUnitColP t k (i + 1) := by
  obtain ⟨h1, h2, h3⟩ := lastMatch_some h
  refine ⟨by omega, isUnitCol_iff.mp h2, fun k hk1 hk2 hu => ?_⟩
  rw [← isUnitCol_iff] at hu
  rw [h3 k hk1 (by omega)] at hu
  simp at hu

theorem basisIdx_none {t : Tab} {i : ℕ} (h : basisIdx t i = none) :
    ∀ j, j ≤ t.w → ¬ IsUnitColP t j (i + 1) := by
  intro j hj hu
  rw [← isUnitCol_iff] at hu
  rw [lastMatch_none h j (by omega)] at hu
  simp at hu

theorem basisIdx_ne_none {t : Tab} {i j : ℕ} (hj : j ≤ t.w)
    (hu : IsUnitColP t j (i + 1)) : basisIdx t i ≠ none := by
  intro h
  exact basisIdx_none h j hj hu

theorem contains_eq_false_iff_complete (t : Tab) :
    ((tabBasis t).contains (-1) = false) ↔ Complete t := by
  have hmem : (-1 : ℤ) ∈ tabBasis t ↔ ∃ i, i < t.m ∧ basisIdx t i = none := by
    simp only [tabBasis, List.mem_map, List.mem_range]
    constructor
    · rintro ⟨i, hi, he⟩
      refine ⟨i, hi, ?_⟩
      cases hb : basisIdx t i with
      | none => rfl
      | some j => rw [hb] at he; simp at he
    · rintro ⟨i, hi, he⟩
      exact ⟨i, hi, by rw [he]⟩
  constructor
  · intro h i hi
    have hne : (-1 : ℤ) ∉ tabBasis t := by
      intro hmm
      rw [← List.elem_iff] at hmm
      rw [show (tabBasis t).elem (-1) = (tabBasis t).contains (-1) from rfl, h] at hmm
      simp at hmm
    cases hb : basisIdx t i with
    | none => exact absurd (hmem.mpr ⟨i, hi, hb⟩) hne
    | some j =>
      obtain ⟨h1, h2, _⟩ := basisIdx_some hb
      exact ⟨j, h1, h2⟩
  · intro h
    by_contra hc
    have hct : (tabBasis t).contains (-1) = true := by
      cases hv : (tabBasis t).contains (-1)
      · exact absurd hv hc
      · rfl
    obtain ⟨i, hi, hnone⟩ := hmem.mp (List.elem_iff.mp hct)
    obtain ⟨j, hj, hu⟩ := h i hi
    exact basisIdx_ne_none hj hu hnone

/-! ### The pivot operation -/

theorem pivotAround_m (t : Tab) (r c : ℕ) : (pivotAround t r c).m = t.m := rfl

theorem pivotAround_w (t : Tab) (r c : ℕ) : (pivotAround t r c).w = t.w := rfl

theorem pivotAround_e_row (t : Tab) (r c j : ℕ) :
    (pivotAround t r c).e r j = t.e r j / t.e r c := by
  simp [pivotAround]

theorem pivotAround_e_other (t : Tab) {k : ℕ} (r : ℕ) (hkr : k ≠ r) (c j : ℕ) :
    (pivotAround t r c).e k j = t.e k j - (t.e r j / t.e r c) * t.e k c := by
  simp [pivotAround, hkr]

theorem pivotAround_unit_col {t : Tab} {r c : ℕ} (h : t.e r c ≠ 0) :
    ∀ k, (pivotAround t r c).e k c = if k = r then 1 else 0 := by
  intro k
  by_cases hk : k = r
  · subst hk
    rw [pivotAround_e_row, div_self h, if_pos rfl]
  · rw [pivotAround_e_other t r hk, div_self h, if_neg hk]
    ring

theorem pivotAround_preserves_unit {t : Tab} {r c j i : ℕ} (hr : r ≤ t.m)
    (hir : i ≠ r) (hu : IsUnitColP t j i) :
    IsUnitColP (pivotAround t r c) j i := by
  intro k hk
  have hrj : t.e r j = 0 := by
    have := hu r hr
    rwa [if_neg (fun hh => hir hh.symm)] at this
  by_cases hkr : k = r
  · subst hkr
    rw [pivotAround_e_row, hrj, zero_div, if_neg (fun hh => hir hh.symm)]
  · rw [pivotAround_e_other t r hkr, hrj, zero_div, zero_mul, sub_zero]
    exact hu k hk

/-! ### Facts about the selection functions and one pivot call -/

theorem objRowList_length (t : Tab) : (objRowList t).length = t.w := by
  simp [objRowList]

theorem objRowList_getD {t : Tab} {j : ℕ} (h : j < t.w) (d : ℚ) :
    (objRowList t).getD j d = t.e 0 j := by
  unfold objRowList
  rw [getD_map_range _ h]

theorem ratioList_length (t : Tab) (c : ℕ) : (ratioList t c).length = t.m := by
  simp [ratioList]

theorem enteringVar_some {t : Tab} {b : Bool} {c : ℕ}
    (h : enteringVar t b = some c) : c < t.w ∧ t.e 0 c < 0 := by
  unfold enteringVar at h
  cases hf : firstNegIdx (objRowList t) with
  | none => rw [hf] at h; exact absurd h (by simp)
  | some jB =>
    rw [hf] at h
    obtain ⟨h1, h2, _⟩ := firstNegIdx_some hf
    rw [objRowList_length] at h1
    rw [objRowList_getD h1] at h2
    have hc : c = if b then jB else argminIdx (objRowList t) := by
      simpa using h.symm
    cases b with
    | true => rw [if_pos rfl] at hc; subst hc; exact ⟨h1, h2⟩
    | false =>
      rw [if_neg (by simp)] at hc
      subst hc
      have hne : objRowList t ≠ [] := by
        intro hnil
        have hlen := objRowList_length t
        rw [hnil] at hlen
        simp at hlen
        omega
      have hlt : argminIdx (objRowList t) < (objRowList t).length :=
        argminIdx_lt_length hne
      have hle := argminIdx_le (objRowList t) 0 jB (by rwa [objRowList_length])
      rw [objRowList_length] at hlt
      rw [objRowList_getD hlt, objRowList_getD h1] at hle
      exact ⟨hlt, lt_of_le_of_lt hle h2⟩

theorem departingVar_lt {t : Tab} (hm : 1 ≤ t.m) (c : ℕ) (b : Bool) :
    departingVar t c b < t.m := by
  have hne : ratioList t c ≠ [] := by
    intro hnil
    have := ratioList_length t c
    rw [hnil] at this
    simp at this
    omega
  have hd0 : argminIdx (ratioList t c) < t.m := by
    have := argminIdx_lt_length hne
    rwa [ratioList_length] at this
  unfold departingVar
  cases b with
  | false => simpa using hd0
  | true =>
    simp only [if_pos rfl]
    set ratios := ratioList t c with hr
    set val := ratios.getD (argminIdx ratios) ⊤ with hv
    set bas := tabBasis t with hb
    set tied := (List.range t.m).filter (fun i => ratios.getD i ⊤ == val) with ht
    have htied : argminIdx ratios ∈ tied := by
      rw [ht, List.mem_filter]
      exact ⟨List.mem_range.mpr hd0, beq_iff_eq.mpr hv.symm⟩
    have hmapne : (tied.map (fun i => bas.getD i (-1))) ≠ [] := by
      intro hnil
      rw [List.map_eq_nil_iff] at hnil
      rw [hnil] at htied
      simp at htied
    obtain ⟨v, hvmin⟩ : ∃ v, (tied.map (fun i => bas.getD i (-1))).min? = some v := by
      cases hmm : (tied.map (fun i => bas.getD i (-1))).min? with
      | none => exact absurd (List.min?_eq_none_iff.mp hmm) hmapne
      | some v => exact ⟨v, rfl⟩
    have hvmem : v ∈ tied.map (fun i => bas.getD i (-1)) :=
      List.min?_mem (by intro x y; exact min_choice x y) hvmin
    obtain ⟨i, hitied, hvi⟩ := List.mem_map.mp hvmem
    have him : i < t.m := by
      rw [ht, List.mem_filter, List.mem_range] at hitied
      exact hitied.1
    have hvb : v ∈ bas := by
      rw [← hvi]
      have hib : i < bas.length := by rwa [hb, tabBasis_length]
      rw [List.getD_eq_getElem _ _ hib]
      exact List.getElem_mem hib
    have := List.indexOf_lt_length.mpr hvb
    rw [hb, tabBasis_length] at this
    rw [hvmin]
    simpa using this

theorem pivotStepT_terminal_eq {t : Tab} {b : Bool} {t' : Tab} {st : TState}
    (h : pivotStepT t b = (t', some st)) : t' = t := by
  unfold pivotStepT at h
  cases he : enteringVar t b with
  | none =>
    rw [he] at h
    exact (Prod.mk.injEq _ _ _ _ ▸ h).1.symm
  | some c =>
    rw [he] at h
    simp only at h
    split at h
    · exact (Prod.mk.injEq _ _ _ _ ▸ h).1.symm
    · exact absurd (Prod.mk.injEq _ _ _ _ ▸ h).2 (by simp)

theorem pivotStepT_none_inv {t : Tab} {b : Bool} {t' : Tab}
    (h : pivotStepT t b = (t', none)) :
    ∃ c, enteringVar t b = some c ∧ 0 < t.e (departingVar t c b + 1) c ∧
      t' = pivotAround t (departingVar t c b + 1) c := by
  unfold pivotStepT at h
  cases he : enteringVar t b with
  | none =>
    rw [he] at h
    exact absurd (Prod.mk.injEq _ _ _ _ ▸ h).2 (by simp)
  | some c =>
    rw [he] at h
    simp only at h
    split at h
    · exact absurd (Prod.mk.injEq _ _ _ _ ▸ h).2 (by simp)
    · rename_i hpos
      exact ⟨c, rfl, lt_of_not_le hpos, (Prod.mk.injEq _ _ _ _ ▸ h).1.symm⟩

theorem pivotStepT_none_complete {t : Tab} {b : Bool} {t' : Tab}
    (hm : 1 ≤ t.m) (hcpl : Complete t) (h : pivotStepT t b = (t', none)) :
    Complete t' ∧ t'.m = t.m ∧ t'.w = t.w := by
  obtain ⟨c, hent, hpos, rfl⟩ := pivotStepT_none_inv h
  obtain ⟨hcw, _⟩ := enteringVar_some hent
  set d := departingVar t c b with hd
  have hdm : d < t.m := departingVar_lt hm c b
  refine ⟨?_, rfl, rfl⟩
  intro i hi
  rw [pivotAround_m] at hi
  by_cases hir : i + 1 = d + 1
  · refine ⟨c, le_of_lt hcw, ?_⟩
    intro k hk
    rw [pivotAround_unit_col (ne_of_gt hpos) k, hir]
  · obtain ⟨j, hj, hu⟩ := hcpl i hi
    exact ⟨j, hj, pivotAround_preserves_unit (by omega) hir hu⟩

theorem runPivots_succ (useB : Bool) (t : Tab) (k : ℕ) :
    runPivots useB t (k + 1) =
      match pivotStepT t useB with
      | (t', some st) => (t', 0, some st)
      | (t', none) =>
        let r := runPivots useB t' k
        (r.1, r.2.1 + 1, r.2.2) := rfl

theorem runPivots_inv (useB : Bool) (t : Tab) (k : ℕ) (hm : 1 ≤ t.m)
    (hcpl : Complete t) :
    Complete (runPivots useB t k).1 ∧ (runPivots useB t k).1.m = t.m ∧
      (runPivots useB t k).1.w = t.w := by
  induction k generalizing t with
  | zero => exact ⟨hcpl, rfl, rfl⟩
  | succ k ih =>
    rw [runPivots_succ]
    cases hp : pivotStepT t useB with
    | mk t' st? =>
      cases st? with
      | some st =>
        obtain rfl := pivotStepT_terminal_eq hp
        exact ⟨hcpl, rfl, rfl⟩
      | none =>
        obtain ⟨hc', hm', hw'⟩ := pivotStepT_none_complete hm hcpl hp
        obtain ⟨h1, h2, h3⟩ := ih t' (by omega) hc'
        show Complete (runPivots useB t' k).1 ∧ (runPivots useB t' k).1.m = t.m ∧
          (runPivots useB t' k).1.w = t.w
        exact ⟨h1, by omega, by omega⟩

theorem runPivots_pivots_le (useB : Bool) (t : Tab) (k : ℕ) :
    (runPivots useB t k).2.1 ≤ k := by
  induction k generalizing t with
  | zero => simp [runPivots]
  | succ k ih =>
    rw [runPivots_succ]
    cases hp : pivotStepT t useB with
    | mk t' st? =>
      cases st? with
      | some st => simp
      | none =>
        show (runPivots useB t' k).2.1 + 1 ≤ k + 1
        have := ih t'
        omega

theorem runPivots_none_budget (useB : Bool) (t : Tab) (k : ℕ)
    (h : (runPivots useB t k).2.2 = none) : (runPivots useB t k).2.1 = k := by
  induction k generalizing t with
  | zero => simp [runPivots]
  | succ k ih =>
    rw [runPivots_succ] at h ⊢
    cases hp : pivotStepT t useB with
    | mk t' st? =>
      rw [hp] at h
      cases st? with
      | some st => simp at h
      | none =>
        have h' : (runPivots useB t' k).2.2 = none := h
        show (runPivots useB t' k).2.1 + 1 = k + 1
        rw [ih t' h']

/-! ### Phase 1: adding the artificial variables -/

theorem mem_missingRows {t : Tab} {i : ℕ} :
    i ∈ missingRows t ↔ i < t.m ∧ (tabBasis t).getD i 0 = -1 := by
  simp [missingRows, List.mem_filter, List.mem_range, beq_iff_eq]

theorem addArtificials_m (t : Tab) : (addArtificials t).1.m = t.m := rfl

theorem addArtificials_w (t : Tab) :
    (addArtificials t).1.w = t.w + (missingRows t).length := rfl

theorem addArtificials_avs (t : Tab) :
    (addArtificials t).2 = List.range' t.w (missingRows t).length := rfl

theorem addArtificials_e_old {t : Tab} {j : ℕ} (hj : j < t.w) (i : ℕ) :
    (addArtificials t).1.e i j = if i = 0 then phase1Cost t j else t.e i j := by
  simp [addArtificials, hj]

theorem addArtificials_e_art {t : Tab} {j : ℕ} (hj1 : t.w ≤ j)
    (hj2 : j < t.w + (missingRows t).length) (i : ℕ) :
    (addArtificials t).1.e i j =
      if i = (missingRows t).getD (j - t.w) 0 + 1 then 1 else 0 := by
  simp [addArtificials, Nat.not_lt.mpr hj1, hj2]

theorem addArtificials_e_rhs (t : Tab) (i : ℕ) :
    (addArtificials t).1.e i (t.w + (missingRows t).length) =
      if i = 0 then phase1Cost t t.w else t.e i t.w := by
  simp [addArtificials]

theorem phase1Cost_unit {t : Tab} {j i0 : ℕ} (hi0 : i0 < t.m)
    (hb : (tabBasis t).getD i0 0 ≠ -1) (hu : IsUnitColP t j (i0 + 1)) :
    phase1Cost t j = 0 := by
  unfold phase1Cost
  rw [Finset.sum_eq_single_of_mem i0 (Finset.mem_range.mpr hi0)]
  · rw [hu (i0 + 1) (by omega), if_pos rfl, mul_one, if_neg hb]
  · intro b hbm hbne
    rw [hu (b + 1) (by simp at hbm; omega)]
    rw [if_neg (show ¬ b + 1 = i0 + 1 by omega), mul_zero]

theorem addArtificials_complete (t : Tab) : Complete (addArtificials t).1 := by
  intro i hi
  rw [addArtificials_m] at hi
  cases hbi : basisIdx t i with
  | none =>
    have hmem : i ∈ missingRows t := by
      rw [mem_missingRows]
      exact ⟨hi, by rw [tabBasis_getD hi, hbi]⟩
    have hk : (missingRows t).indexOf i < (missingRows t).length :=
      List.indexOf_lt_length.mpr hmem
    refine ⟨t.w + (missingRows t).indexOf i, ?_, ?_⟩
    · rw [addArtificials_w]
      exact Nat.add_le_add_left (Nat.le_of_lt hk) t.w
    · intro k hk'
      rw [addArtificials_e_art (by omega) (by omega)]
      have : (missingRows t).getD ((t.w + (missingRows t).indexOf i) - t.w) 0 = i := by
        rw [Nat.add_sub_cancel_left, List.getD_eq_getElem _ _ hk]
        exact List.getElem_indexOf hk
      rw [this]
  | some j0 =>
    obtain ⟨hj0, hu, _⟩ := basisIdx_some hbi
    have hbne : (tabBasis t).getD i 0 ≠ -1 := by
      rw [tabBasis_getD hi, hbi]
      show ¬ ((j0 : ℤ) = -1)
      omega
    have hp1 : phase1Cost t j0 = 0 := phase1Cost_unit hi hbne hu
    rcases Nat.lt_or_ge j0 t.w with hlt | hge
    · refine ⟨j0, by rw [addArtificials_w]; exact Nat.le_add_right_of_le (le_of_lt hlt), ?_⟩
      intro k hk
      rw [addArtificials_e_old hlt]
      by_cases hk0 : k = 0
      · subst hk0
        rw [if_pos rfl, hp1, if_neg (by omega)]
      · rw [if_neg hk0]
        exact hu k hk
    · have hj0w : j0 = t.w := by omega
      subst hj0w
      refine ⟨t.w + (missingRows t).length, le_of_eq (addArtificials_w t).symm, ?_⟩
      intro k hk
      rw [addArtificials_e_rhs]
      by_cases hk0 : k = 0
      · subst hk0
        rw [if_pos rfl, hp1, if_neg (by omega)]
      · rw [if_neg hk0]
        exact hu k hk

/-! ### Phase 1: dropping the artificial variables -/

theorem delCols_m (t1 : Tab) (a : ℕ) : (delCols t1 a).m = t1.m := rfl

theorem delCols_w (t1 : Tab) (a : ℕ) : (delCols t1 a).w = t1.w - a := rfl

theorem delCols_e_lt {t1 : Tab} {a j : ℕ} (h : j < t1.w - a) (i : ℕ) :
    (delCols t1 a).e i j = t1.e i j := by
  simp [delCols, h]

theorem delCols_e_ge {t1 : Tab} {a j : ℕ} (h : t1.w - a ≤ j) (i : ℕ) :
    (delCols t1 a).e i j = t1.e i (j + a) := by
  simp [delCols, Nat.not_lt.mpr h]

theorem dropTab_m (t1 : Tab) (avs : List ℕ) (obj : List ℚ) :
    (dropTab t1 avs obj).m = t1.m := rfl

theorem dropTab_w (t1 : Tab) (avs : List ℕ) (obj : List ℚ) :
    (dropTab t1 avs obj).w = t1.w - avs.length := rfl

theorem dropTab_e_other {t1 : Tab} {avs : List ℕ} {obj : List ℚ} {i : ℕ}
    (hi : i ≠ 0) (j : ℕ) :
    (dropTab t1 avs obj).e i j = (delCols t1 avs.length).e i j := by
  simp [dropTab, hi]

theorem dropTab_e_row0 (t1 : Tab) (avs : List ℕ) (obj : List ℚ) (j : ℕ) :
    (dropTab t1 avs obj).e 0 j =
      (∑ k in Finset.range t1.m,
        ((dropCosts t1 avs obj).map (fun o => o.getD 0)).getD k 0 *
          (delCols t1 avs.length).e (k + 1) j) -
        objExt obj (t1.w - avs.length) j := by
  simp [dropTab]

theorem dropArtificials_ok_complete {t1 : Tab} {avs : List ℕ} {obj : List ℚ}
    {t2 : Tab} (hcpl : Complete t1) (ha : avs.length ≤ t1.w)
    (havs : ∀ v : ℕ, v ∈ avs ↔ t1.w - avs.length ≤ v ∧ v < t1.w)
    (hobj : obj.length = t1.w - avs.length)
    (hok : dropArtificials t1 avs obj = .ok t2) :
    Complete t2 ∧ t2.m = t1.m ∧ t2.w = t1.w - avs.length := by
  unfold dropArtificials at hok
  by_cases hc1 : (tabBasis t1).any (fun v => avs.any (fun x => (x : ℤ) == v)) = true
  · rw [if_pos hc1] at hok; exact absurd hok (by simp)
  rw [if_neg hc1] at hok
  by_cases hc2 : (dropCosts t1 avs obj).any (fun o => o.isNone) = true
  · rw [if_pos hc2] at hok; exact absurd hok (by simp)
  rw [if_neg hc2] at hok
  obtain rfl : dropTab t1 avs obj = t2 := by
    cases hok; rfl
  refine ⟨?_, rfl, rfl⟩
  intro i hi
  have him : i < t1.m := hi
  obtain ⟨j0br, hbi⟩ : ∃ j0br, basisIdx t1 i = some j0br := by
    obtain ⟨j, hj, hu⟩ := hcpl i him
    cases hb : basisIdx t1 i with
    | none => exact absurd hb (basisIdx_ne_none hj hu)
    | some j' => exact ⟨j', rfl⟩
  obtain ⟨hj0le, hu0, _⟩ := basisIdx_some hbi
  have hnotin : j0br ∉ avs := by
    intro hmm
    rw [Bool.not_eq_true, List.any_eq_false] at hc1
    have hlen : i < (tabBasis t1).length := by rwa [tabBasis_length]
    have hgd : (tabBasis t1).getD i 0 = (j0br : ℤ) := by
      rw [tabBasis_getD him, hbi]
    have hvmem : ((j0br : ℤ)) ∈ tabBasis t1 := by
      rw [List.getD_eq_getElem _ _ hlen] at hgd
      rw [← hgd]
      exact List.getElem_mem hlen
    have h2 := hc1 _ hvmem
    rw [Bool.not_eq_true, List.any_eq_false] at h2
    have h3 := h2 j0br hmm
    simp at h3
  have hj0cases : j0br < t1.w - avs.length ∨ j0br = t1.w := by
    by_cases h1 : j0br < t1.w - avs.length
    · exact Or.inl h1
    · right
      by_contra h2
      exact hnotin ((havs j0br).mpr ⟨by omega, by omega⟩)
  have hmid : ∃ jm, jm ≤ t1.w - avs.length ∧
      IsUnitColP (delCols t1 avs.length) jm (i + 1) := by
    rcases hj0cases with h | h
    · refine ⟨j0br, le_of_lt h, ?_⟩
      intro k hk
      rw [delCols_e_lt h]
      exact hu0 k hk
    · refine ⟨t1.w - avs.length, le_refl _, ?_⟩
      intro k hk
      rw [delCols_e_ge (le_refl _)]
      rw [show t1.w - avs.length + avs.length = t1.w by omega, ← h]
      exact hu0 k hk
  obtain ⟨js, hbs⟩ : ∃ js, basisIdx (delCols t1 avs.length) i = some js := by
    obtain ⟨jm, hjm, hum⟩ := hmid
    cases hb : basisIdx (delCols t1 avs.length) i with
    | none =>
      exact absurd hb (basisIdx_ne_none (by rw [delCols_w]; exact hjm) hum)
    | some j' => exact ⟨j', rfl⟩
  obtain ⟨hjsle, hus, _⟩ := basisIdx_some hbs
  rw [delCols_w] at hjsle
  have hmlen : i < (tabBasis (delCols t1 avs.length)).length := by
    rw [tabBasis_length, delCols_m]
    exact him
  have hci : (dropCosts t1 avs obj).getD i none = pyGet obj (js : ℤ) := by
    unfold dropCosts
    rw [List.getD_eq_getElem _ _ (by rw [List.length_map]; exact hmlen)]
    rw [List.getElem_map]
    have hgd : (tabBasis (delCols t1 avs.length)).getD i 0 = (js : ℤ) := by
      rw [tabBasis_getD (show i < (delCols t1 avs.length).m from him), hbs]
    rw [List.getD_eq_getElem _ _ hmlen] at hgd
    rw [hgd]
  have hsucc : pyGet obj (js : ℤ) ≠ none := by
    rw [Bool.not_eq_true, List.any_eq_false] at hc2
    have hmem : (dropCosts t1 avs obj).getD i none ∈ dropCosts t1 avs obj := by
      rw [List.getD_eq_getElem _ _ (by
        rw [dropCosts, List.length_map]; exact hmlen)]
      exact List.getElem_mem _
    have := hc2 _ hmem
    rw [hci] at this
    simpa using this
  obtain ⟨q, hq⟩ : ∃ q, pyGet obj (js : ℤ) = some q := by
    cases hp : pyGet obj (js : ℤ) with
    | none => exact absurd hp hsucc
    | some q => exact ⟨q, rfl⟩
  have hqget : obj.get? js = some q := by
    unfold pyGet at hq
    rw [if_pos (by positivity)] at hq
    simpa using hq
  have hjslt : js < obj.length := by
    by_contra hcon
    rw [List.get?_eq_none.mpr (by omega)] at hqget
    simp at hqget
  have hjsn : js < t1.w - avs.length := by omega
  have hqval : obj.getD js 0 = q := by
    rw [List.getD_eq_getElem _ _ hjslt]
    have := List.get?_eq_some.mp hqget
    obtain ⟨hh, hv⟩ := this
    rw [← hv]
    simp [List.get_eq_getElem]
  refine ⟨js, le_of_lt hjsn, ?_⟩
  intro k hk
  by_cases hk0 : k = 0
  · subst hk0
    rw [dropTab_e_row0]
    have hsum : (∑ k in Finset.range t1.m,
        ((dropCosts t1 avs obj).map (fun o => o.getD 0)).getD k 0 *
          (delCols t1 avs.length).e (k + 1) js) =
        ((dropCosts t1 avs obj).map (fun o => o.getD 0)).getD i 0 := by
      rw [Finset.sum_eq_single_of_mem i (Finset.mem_range.mpr him)]
      · rw [hus (i + 1) (by exact him), if_pos rfl, mul_one]
      · intro b hbm hbne
        rw [hus (b + 1) (by simp at hbm; exact hbm)]
        rw [if_neg (show ¬ b + 1 = i + 1 by omega), mul_zero]
    rw [hsum]
    have hcosts : ((dropCosts t1 avs obj).map (fun o => o.getD 0)).getD i 0 = q := by
      rw [List.getD_eq_getElem _ _ (by
        rw [List.length_map, dropCosts, List.length_map]; exact hmlen)]
      rw [List.getElem_map]
      rw [← List.getD_eq_getElem _ none (by rw [dropCosts, List.length_map]; exact hmlen)]
      rw [hci, hq]
      rfl
    rw [hcosts]
    rw [objExt, if_pos hjsn, hqval]
    rw [if_neg (by omega)]
    ring
  · rw [dropTab_e_other hk0]
    exact hus k hk

/-! ### The solver driver -/

theorem solveFuel_succ_phase (obj : List ℚ) (f : ℕ) (t : Tab) (mi : ℕ) (b : Bool)
    (hc : (tabBasis t).contains (-1) = true) :
    solveFuel obj (f + 1) t mi b =
      phaseCont obj (fun tt => solveFuel obj f tt 100 true) (addArtificials t).2
        (solveFuel obj f (addArtificials t).1 mi false) mi b := by
  show (if (tabBasis t).contains (-1) then _ else _) = _
  rw [hc]
  simp

theorem solveFuel_succ_noPhase (obj : List ℚ) (f : ℕ) (t : Tab) (mi : ℕ) (b : Bool)
    (hc : (tabBasis t).contains (-1) = false) :
    solveFuel obj (f + 1) t mi b =
      solveLoopStep (fun tt => solveFuel obj f tt 100 true) t mi b := by
  show (if (tabBasis t).contains (-1) then _ else _) = _
  rw [hc]
  simp

theorem solveLoopStep_eq_terminal {retry : Tab → SRun} {t0 : Tab} {mi : ℕ}
    {b : Bool} {t' : Tab} {kp : ℕ} {st : TState}
    (h : runPivots b t0 mi = (t', kp, some st)) :
    solveLoopStep retry t0 mi b = ⟨.sol (mkSolution st t'), t', kp, 0⟩ := by
  unfold solveLoopStep
  rw [h]

theorem solveLoopStep_eq_exhaust_true {retry : Tab → SRun} {t0 : Tab} {mi : ℕ}
    {t' : Tab} {kp : ℕ} (h : runPivots true t0 mi = (t', kp, none)) :
    solveLoopStep retry t0 mi true = ⟨.unsolvable mi, t', kp, 0⟩ := by
  unfold solveLoopStep
  rw [h]
  rfl

theorem solveLoopStep_eq_exhaust_false {retry : Tab → SRun} {t0 : Tab} {mi : ℕ}
    {t' : Tab} {kp : ℕ} (h : runPivots false t0 mi = (t', kp, none)) :
    solveLoopStep retry t0 mi false =
      ⟨(retry t').res, (retry t').tab, kp + (retry t').pivots, (retry t').phases⟩ := by
  unfold solveLoopStep
  rw [h]
  rfl

theorem solveLoopStep_bland (retry : Tab → SRun) (t0 : Tab) (mi : ℕ)
    (hm : 1 ≤ t0.m) (hcpl : Complete t0) :
    ((∃ s, (solveLoopStep retry t0 mi true).res = .sol s) ∨
      (solveLoopStep retry t0 mi true).res = .unsolvable mi) ∧
    (solveLoopStep retry t0 mi true).pivots ≤ mi ∧
    (solveLoopStep retry t0 mi true).phases = 0 ∧
    Complete (solveLoopStep retry t0 mi true).tab ∧
    (solveLoopStep retry t0 mi true).tab.m = t0.m ∧
    (solveLoopStep retry t0 mi true).tab.w = t0.w := by
  obtain ⟨hcp', hm', hw'⟩ := runPivots_inv true t0 mi hm hcpl
  have hkp := runPivots_pivots_le true t0 mi
  cases hrp : runPivots true t0 mi with
  | mk t' rest =>
    rw [hrp] at hcp' hm' hw' hkp
    cases rest with
    | mk kp st? =>
      cases st? with
      | some st =>
        rw [solveLoopStep_eq_terminal hrp]
        exact ⟨Or.inl ⟨_, rfl⟩, hkp, rfl, hcp', hm', hw'⟩
      | none =>
        rw [solveLoopStep_eq_exhaust_true hrp]
        exact ⟨Or.inr rfl, hkp, rfl, hcp', hm', hw'⟩

theorem solveFuel_bland (obj : List ℚ) (f : ℕ) (t : Tab) (mi : ℕ)
    (hm : 1 ≤ t.m) (hcpl : Complete t) :
    ((∃ s, (solveFuel obj (f + 1) t mi true).res = .sol s) ∨
      (solveFuel obj (f + 1) t mi true).res = .unsolvable mi) ∧
    (solveFuel obj (f + 1) t mi true).pivots ≤ mi ∧
    (solveFuel obj (f + 1) t mi true).phases = 0 ∧
    Complete (solveFuel obj (f + 1) t mi true).tab ∧
    (solveFuel obj (f + 1) t mi true).tab.m = t.m ∧
    (solveFuel obj (f + 1) t mi true).tab.w = t.w := by
  rw [solveFuel_succ_noPhase obj f t mi true
    ((contains_eq_false_iff_complete t).mpr hcpl)]
  exact solveLoopStep_bland _ t mi hm hcpl

theorem solveLoopStep_spec (obj : List ℚ) (f : ℕ) (t0 : Tab) (mi : ℕ) (b : Bool)
    (hm : 1 ≤ t0.m) (hcpl : Complete t0) :
    ((∃ s, (solveLoopStep (fun tt => solveFuel obj (f + 1) tt 100 true) t0 mi b).res = .sol s) ∨
      (∃ k, (solveLoopStep (fun tt => solveFuel obj (f + 1) tt 100 true) t0 mi b).res =
        .unsolvable k)) ∧
    (solveLoopStep (fun tt => solveFuel obj (f + 1) tt 100 true) t0 mi b).pivots ≤ mi + 100 ∧
    (solveLoopStep (fun tt => solveFuel obj (f + 1) tt 100 true) t0 mi b).phases = 0 ∧
    Complete (solveLoopStep (fun tt => solveFuel obj (f + 1) tt 100 true) t0 mi b).tab ∧
    (solveLoopStep (fun tt => solveFuel obj (f + 1) tt 100 true) t0 mi b).tab.m = t0.m ∧
    (solveLoopStep (fun tt => solveFuel obj (f + 1) tt 100 true) t0 mi b).tab.w = t0.w := by
  cases b with
  | true =>
    obtain ⟨h1, h2, h3, h4, h5, h6⟩ :=
      solveLoopStep_bland (fun tt => solveFuel obj (f + 1) tt 100 true) t0 mi hm hcpl
    refine ⟨?_, by omega, h3, h4, h5, h6⟩
    rcases h1 with h | h
    · exact Or.inl h
    · exact Or.inr ⟨mi, h⟩
  | false =>
    obtain ⟨hcp', hm', hw'⟩ := runPivots_inv false t0 mi hm hcpl
    have hkp := runPivots_pivots_le false t0 mi
    cases hrp : runPivots false t0 mi with
    | mk t' rest =>
      rw [hrp] at hcp' hm' hw' hkp
      cases rest with
      | mk kp st? =>
        cases st? with
        | some st =>
          rw [solveLoopStep_eq_terminal hrp]
          have hkp' : kp ≤ mi := hkp
          refine ⟨Or.inl ⟨_, rfl⟩, ?_, rfl, hcp', hm', hw'⟩
          show kp ≤ mi + 100
          omega
        | none =>
          rw [solveLoopStep_eq_exhaust_false hrp]
          have hkp' : kp ≤ mi := hkp
          have hm'' : t'.m = t0.m := hm'
          have hw'' : t'.w = t0.w := hw'
          obtain ⟨g1, g2, g3, g4, g5, g6⟩ :=
            solveFuel_bland obj f t' 100 (by omega) hcp'
          refine ⟨?_, ?_, g3, g4, ?_, ?_⟩
          · rcases g1 with h | h
            · exact Or.inl h
            · exact Or.inr ⟨100, h⟩
          · show kp + (solveFuel obj (f + 1) t' 100 true).pivots ≤ mi + 100
            omega
          · show (solveFuel obj (f + 1) t' 100 true).tab.m = t0.m
            omega
          · show (solveFuel obj (f + 1) t' 100 true).tab.w = t0.w
            omega

theorem solveFuel_noPhase (obj : List ℚ) (f : ℕ) (t : Tab) (mi : ℕ) (b : Bool)
    (hm : 1 ≤ t.m) (hcpl : Complete t) :
    ((∃ s, (solveFuel obj (f + 2) t mi b).res = .sol s) ∨
      (∃ k, (solveFuel obj (f + 2) t mi b).res = .unsolvable k)) ∧
    (solveFuel obj (f + 2) t mi b).pivots ≤ mi + 100 ∧
    (solveFuel obj (f + 2) t mi b).phases = 0 ∧
    Complete (solveFuel obj (f + 2) t mi b).tab ∧
    (solveFuel obj (f + 2) t mi b).tab.m = t.m ∧
    (solveFuel obj (f + 2) t mi b).tab.w = t.w := by
  rw [show f + 2 = (f + 1) + 1 from rfl, solveFuel_succ_noPhase obj (f + 1) t mi b
    ((contains_eq_false_iff_complete t).mpr hcpl)]
  exact solveLoopStep_spec obj f t mi b hm hcpl

theorem phaseCont_sol_eq (obj : List ℚ) (retry : Tab → SRun) (avs : List ℕ)
    (s : Solution) (tb : Tab) (piv ph mi : ℕ) (b : Bool) :
    phaseCont obj retry avs ⟨.sol s, tb, piv, ph⟩ mi b =
      if truthyAssignment s.assignment then
        match dropArtificials tb avs obj with
        | .crash => ⟨.cleanupCrash, tb, piv, ph + 1⟩
        | .ok t2 =>
          let r3 := solveLoopStep retry t2 mi b
          ⟨r3.res, r3.tab, piv + r3.pivots, ph + 1 + r3.phases⟩
      else ⟨.sol s, tb, piv, ph + 1⟩ := rfl

theorem phaseCont_unsolvable_eq (obj : List ℚ) (retry : Tab → SRun)
    (avs : List ℕ) (k : ℕ) (tb : Tab) (piv ph mi : ℕ) (b : Bool) :
    phaseCont obj retry avs ⟨.unsolvable k, tb, piv, ph⟩ mi b =
      ⟨.unsolvable k, tb, piv, ph + 1⟩ := rfl

theorem phaseCont_spec (obj : List ℚ) (g : ℕ) (t : Tab) (r1 : SRun) (mi : ℕ)
    (b : Bool) (hm : 1 ≤ t.m) (hobj : obj.length = t.w)
    (hres : (∃ s, r1.res = .sol s) ∨ (∃ k, r1.res = .unsolvable k))
    (hpiv : r1.pivots ≤ mi + 100) (hph : r1.phases = 0)
    (hcpl : Complete r1.tab) (hm1 : r1.tab.m = t.m)
    (hw1 : r1.tab.w = t.w + (missingRows t).length) :
    (phaseCont obj (fun tt => solveFuel obj (g + 1) tt 100 true)
        (addArtificials t).2 r1 mi b).res ≠ .fuelOut ∧
    (phaseCont obj (fun tt => solveFuel obj (g + 1) tt 100 true)
        (addArtificials t).2 r1 mi b).pivots ≤ 2 * mi + 200 ∧
    (phaseCont obj (fun tt => solveFuel obj (g + 1) tt 100 true)
        (addArtificials t).2 r1 mi b).phases ≤ 1 := by
  obtain ⟨res1, tb1, piv1, ph1⟩ := r1
  simp only at hres hpiv hph hcpl hm1 hw1
  subst hph
  have havslen : (addArtificials t).2.length = (missingRows t).length := by
    rw [addArtificials_avs, List.length_range']
  rcases hres with ⟨s, hs⟩ | ⟨k, hk⟩
  · subst hs
    rw [phaseCont_sol_eq]
    cases htr : truthyAssignment s.assignment with
    | false =>
      rw [if_neg (show (false = true) → False by simp)]
      refine ⟨?_, ?_, ?_⟩
      · intro h
        exact nomatch h
      · show piv1 ≤ 2 * mi + 200
        omega
      · show 0 + 1 ≤ 1
        omega
    | true =>
      rw [if_pos (show (true = true) from rfl)]
      cases hdrop : dropArtificials tb1 (addArtificials t).2 obj with
      | crash =>
        refine ⟨?_, ?_, ?_⟩
        · intro h
          exact nomatch h
        · show piv1 ≤ 2 * mi + 200
          omega
        · show 0 + 1 ≤ 1
          omega
      | ok t2 =>
        obtain ⟨hc2, hm2, hw2⟩ := dropArtificials_ok_complete hcpl
          (by rw [havslen]; omega)
          (by
            intro v
            simp only [addArtificials_avs, List.length_range', List.mem_range'_1]
            omega)
          (by rw [havslen]; omega) hdrop
        obtain ⟨q1, q2, q3, _, _, _⟩ := solveLoopStep_spec obj g t2 mi b
          (by omega) hc2
        refine ⟨?_, ?_, ?_⟩
        · show (solveLoopStep (fun tt => solveFuel obj (g + 1) tt 100 true)
            t2 mi b).res ≠ .fuelOut
          rcases q1 with ⟨s', hs'⟩ | ⟨k', hk'⟩
          · rw [hs']; exact fun h => nomatch h
          · rw [hk']; exact fun h => nomatch h
        · show piv1 + (solveLoopStep (fun tt => solveFuel obj (g + 1) tt 100 true)
            t2 mi b).pivots ≤ 2 * mi + 200
          omega
        · show 0 + 1 + (solveLoopStep (fun tt => solveFuel obj (g + 1) tt 100 true)
            t2 mi b).phases ≤ 1
          omega
  · subst hk
    rw [phaseCont_unsolvable_eq]
    refine ⟨?_, ?_, ?_⟩
    · intro h
      exact nomatch h
    · show piv1 ≤ 2 * mi + 200
      omega
    · show 0 + 1 ≤ 1
      omega

theorem solveFuel_total_spec (obj : List ℚ) (t : Tab) (maxIter : ℕ) (b : Bool)
    (hm : 1 ≤ t.m) (hobj : obj.length = t.w) :
    (solveFuel obj 3 t maxIter b).res ≠ SolveRes.fuelOut ∧
    (solveFuel obj 3 t maxIter b).pivots ≤ 2 * maxIter + 200 ∧
    (solveFuel obj 3 t maxIter b).phases ≤ 1 := by
  cases hc : (tabBasis t).contains (-1) with
  | false =>
    have hcpl := (contains_eq_false_iff_complete t).mp hc
    obtain ⟨h1, h2, h3, _, _, _⟩ := solveFuel_noPhase obj 1 t maxIter b hm hcpl
    have h1' : (∃ s, (solveFuel obj 3 t maxIter b).res = .sol s) ∨
        (∃ k, (solveFuel obj 3 t maxIter b).res = .unsolvable k) := h1
    have h2' : (solveFuel obj 3 t maxIter b).pivots ≤ maxIter + 100 := h2
    have h3' : (solveFuel obj 3 t maxIter b).phases = 0 := h3
    refine ⟨?_, by omega, by omega⟩
    rcases h1' with ⟨s, hs⟩ | ⟨k, hk⟩
    · rw [hs]; intro hcon; exact nomatch hcon
    · rw [hk]; intro hcon; exact nomatch hcon
  | true =>
    have heq : solveFuel obj 3 t maxIter b =
        phaseCont obj (fun tt => solveFuel obj 2 tt 100 true) (addArtificials t).2
          (solveFuel obj 2 (addArtificials t).1 maxIter false) maxIter b :=
      solveFuel_succ_phase obj 2 t maxIter b hc
    have hm1 : 1 ≤ (addArtificials t).1.m := by rw [addArtificials_m]; omega
    obtain ⟨p1, p2, p3, p4, p5, p6⟩ :=
      solveFuel_noPhase obj 0 (addArtificials t).1 maxIter false hm1
        (addArtificials_complete t)
    obtain ⟨c1, c2, c3⟩ := phaseCont_spec obj 1 t
      (solveFuel obj 2 (addArtificials t).1 maxIter false) maxIter b hm hobj
      p1 p2 p3 p4 ((p5 : _ = (addArtificials t).1.m).trans (addArtificials_m t))
      ((p6 : _ = (addArtificials t).1.w).trans (addArtificials_w t))
    have c1' : (phaseCont obj (fun tt => solveFuel obj 2 tt 100 true)
        (addArtificials t).2 (solveFuel obj 2 (addArtificials t).1 maxIter false)
        maxIter b).res ≠ SolveRes.fuelOut := c1
    have c2' : (phaseCont obj (fun tt => solveFuel obj 2 tt 100 true)
        (addArtificials t).2 (solveFuel obj 2 (addArtificials t).1 maxIter false)
        maxIter b).pivots ≤ 2 * maxIter + 200 := c2
    have c3' : (phaseCont obj (fun tt => solveFuel obj 2 tt 100 true)
        (addArtificials t).2 (solveFuel obj 2 (addArtificials t).1 maxIter false)
        maxIter b).phases ≤ 1 := c3
    rw [heq]
    exact ⟨c1', c2', c3'⟩

/-! ### The solution builder -/

theorem pySet_length (l : List ℚ) (i : ℤ) (v : ℚ) :
    (pySet l i v).length = l.length := by
  unfold pySet
  split <;> rw [List.length_set]

theorem foldl_pySet_length (pairs : List (ℤ × ℚ)) (l : List ℚ) :
    (pairs.foldl (fun l p => pySet l p.1 p.2) l).length = l.length := by
  induction pairs generalizing l with
  | nil => rfl
  | cons p ps ih => rw [List.foldl_cons, ih, pySet_length]

theorem getD_set_ne {l : List ℚ} {j i : ℕ} (h : j ≠ i) (v d : ℚ) :
    (l.set j v).getD i d = l.getD i d := by
  rw [List.getD_eq_getElem?_getD, List.getElem?_set_ne h, ← List.getD_eq_getElem?_getD]

theorem pySet_getD_ne {l : List ℚ} {iz : ℤ} (hz : 0 ≤ iz) {i : ℕ}
    (h : iz.toNat ≠ i) (v : ℚ) : (pySet l iz v).getD i 0 = l.getD i 0 := by
  unfold pySet
  rw [if_pos hz]
  exact getD_set_ne h v 0

theorem foldl_pySet_getD_notin (pairs : List (ℤ × ℚ)) (l : List ℚ) (i : ℕ)
    (h : ∀ p ∈ pairs, 0 ≤ p.1 ∧ p.1.toNat ≠ i) :
    (pairs.foldl (fun l p => pySet l p.1 p.2) l).getD i 0 = l.getD i 0 := by
  induction pairs generalizing l with
  | nil => rfl
  | cons p ps ih =>
    rw [List.foldl_cons, ih _ (fun q hq => h q (List.mem_cons_of_mem p hq))]
    obtain ⟨h1, h2⟩ := h p (List.mem_cons_self p ps)
    exact pySet_getD_ne h1 h2 p.2

theorem foldl_pySet_getD_at (pairs : List (ℤ × ℚ)) (l : List ℚ) (k : ℕ)
    (hk : k < pairs.length)
    (hpos : ∀ p ∈ pairs, 0 ≤ p.1)
    (hinj : pairs.Pairwise (fun p q => p.1 ≠ q.1))
    (hrange : ∀ p ∈ pairs, p.1.toNat < l.length) :
    (pairs.foldl (fun l p => pySet l p.1 p.2) l).getD
      (pairs.getD k (0, 0)).1.toNat 0 = (pairs.getD k (0, 0)).2 := by
  induction pairs generalizing l k with
  | nil => simp at hk
  | cons p ps ih =>
    rw [List.foldl_cons]
    cases k with
    | zero =>
      rw [List.getD_cons_zero]
      have hstep : ∀ q ∈ ps, 0 ≤ q.1 ∧ q.1.toNat ≠ p.1.toNat := by
        intro q hq
        refine ⟨hpos q (List.mem_cons_of_mem p hq), ?_⟩
        have hne : p.1 ≠ q.1 := (List.pairwise_cons.mp hinj).1 q hq
        have hp0 := hpos p (List.mem_cons_self p ps)
        have hq0 := hpos q (List.mem_cons_of_mem p hq)
        intro hcon
        exact hne (by omega)
      rw [foldl_pySet_getD_notin ps _ _ hstep]
      unfold pySet
      rw [if_pos (hpos p (List.mem_cons_self p ps))]
      have hlt : p.1.toNat < l.length := hrange p (List.mem_cons_self p ps)
      rw [List.getD_eq_getElem _ _ (by rw [List.length_set]; exact hlt)]
      exact List.getElem_set_self _
    | succ k =>
      rw [List.getD_cons_succ]
      refine ih (pySet l p.1 p.2) k (by simpa using hk)
        (fun q hq => hpos q (List.mem_cons_of_mem p hq))
        ((List.pairwise_cons.mp hinj).2)
        (fun q hq => by rw [pySet_length]; exact hrange q (List.mem_cons_of_mem p hq))

theorem mkAssignment_length (b : List ℤ) (rhs : List ℚ) :
    (mkAssignment b rhs).length = (pyMax b + 1).toNat := by
  unfold mkAssignment
  rw [foldl_pySet_length, List.length_replicate]

theorem le_pyMax {b : List ℤ} {x : ℤ} (hx : x ∈ b) : x ≤ pyMax b := by
  have hanti : Std.Antisymm (fun x1 x2 : ℤ => x1 ≤ x2) :=
    ⟨fun h1 h2 => le_antisymm h1 h2⟩
  cases hm : b.max? with
  | none =>
    rw [List.max?_eq_none_iff] at hm
    rw [hm] at hx
    exact absurd hx (by simp)
  | some m =>
    have hmm := hm
    rw [List.max?_eq_some_iff (fun a => le_refl a) (fun a b => max_choice a b)
      (fun a b c => max_le_iff)] at hmm
    unfold pyMax
    rw [hm]
    exact hmm.2 x hx

/-! ### Claim theorems -/

/-- C4: when row 0 (RHS excluded) has no negative entry, the pivot step
terminates without pivoting, classifying the tableau Optimal when every RHS
value of rows 1..m is nonnegative and Infeasible when some RHS value is
negative; the returned tableau is the unchanged input. -/
theorem pivot_terminal_classification (t : Tab) (useB : Bool)
    (hneg : ∀ j, j < t.w → 0 ≤ t.e 0 j) :
    pivotStepT t useB =
      (t, some (if allRhsNonneg t then TState.Optimal else TState.Infeasible)) ∧
    ((∀ i, i < t.m → 0 ≤ t.e (i + 1) t.w) →
      pivotStepT t useB = (t, some TState.Optimal)) ∧
    ((∃ i, i < t.m ∧ t.e (i + 1) t.w < 0) →
      pivotStepT t useB = (t, some TState.Infeasible)) := by
  have hent : enteringVar t useB = none := by
    unfold enteringVar
    cases hf : firstNegIdx (objRowList t) with
    | none => rfl
    | some j =>
      obtain ⟨h1, h2, _⟩ := firstNegIdx_some hf
      rw [objRowList_length] at h1
      rw [objRowList_getD h1] at h2
      exact absurd h2 (not_lt.mpr (hneg j h1))
  have hbase : pivotStepT t useB =
      (t, some (if allRhsNonneg t then TState.Optimal else TState.Infeasible)) := by
    unfold pivotStepT
    rw [hent]
  refine ⟨hbase, ?_, ?_⟩
  · intro hall
    have hrhs : allRhsNonneg t = true := by
      unfold allRhsNonneg
      rw [List.all_eq_true]
      intro x hx
      rw [List.mem_range] at hx
      exact decide_eq_true (hall x hx)
    rw [hbase, hrhs]
    simp
  · intro ⟨i, hi, hival⟩
    have hrhs : allRhsNonneg t = false := by
      cases hv : allRhsNonneg t
      · rfl
      · unfold allRhsNonneg at hv
        rw [List.all_eq_true] at hv
        have := hv i (List.mem_range.mpr hi)
        rw [decide_eq_true_eq] at this
        exact absurd hival (not_lt.mpr this)
    rw [hbase, hrhs]
    simp

/-- C4 witness: a concrete optimal tableau discharging the hypothesis. -/
theorem pivot_terminal_classification_witness :
    (∀ j, j < exOpt.w → 0 ≤ exOpt.e 0 j) ∧
    pivotStepT exOpt false =
      (exOpt, some (if allRhsNonneg exOpt then TState.Optimal else TState.Infeasible)) :=
  ⟨by decide, (pivot_terminal_classification exOpt false (by decide)).1⟩

/-- C10: whenever one pivot call ends in a terminal classification instead
of completing a pivot, the returned tableau is exactly the input tableau:
the entering search, the feasibility check and the unboundedness check all
precede the in-place mutation. -/
theorem pivot_terminal_no_mutation (t : Tab) (useB : Bool) (st : TState)
    (h : (pivotStepT t useB).2 = some st) : (pivotStepT t useB).1 = t := by
  cases hp : pivotStepT t useB with
  | mk t' st? =>
    rw [hp] at h
    cases st? with
    | none => exact absurd h (by simp)
    | some st2 => exact pivotStepT_terminal_eq hp

/-- C10 witness: the terminal Optimal step at a concrete tableau. -/
theorem pivot_terminal_no_mutation_witness :
    (pivotStepT exOpt false).2 = some TState.Optimal ∧
    (pivotStepT exOpt false).1 = exOpt :=
  ⟨by decide, pivot_terminal_no_mutation exOpt false TState.Optimal (by decide)⟩

/-- C5: with at least one negative entry in row 0 (RHS excluded), Bland's
rule selects the smallest column index holding a negative entry, and the
standard rule selects the column of the most negative entry with ties broken
by the first occurrence. -/
theorem entering_selection (t : Tab) (hneg : ∃ j, j < t.w ∧ t.e 0 j < 0) :
    (∃ cB, enteringVar t true = some cB ∧ cB < t.w ∧ t.e 0 cB < 0 ∧
      (∀ j, j < cB → 0 ≤ t.e 0 j)) ∧
    (∃ cS, enteringVar t false = some cS ∧ cS < t.w ∧
      (∀ j, j < t.w → t.e 0 cS ≤ t.e 0 j) ∧
      (∀ j, j < cS → t.e 0 cS < t.e 0 j)) := by
  obtain ⟨j0, hj0, hjneg⟩ := hneg
  have hne : firstNegIdx (objRowList t) ≠ none := by
    intro hf
    have := firstNegIdx_none hf j0 (by rwa [objRowList_length])
    rw [objRowList_getD hj0] at this
    exact absurd hjneg (not_lt.mpr this)
  obtain ⟨jB, hf⟩ : ∃ jB, firstNegIdx (objRowList t) = some jB := by
    cases hv : firstNegIdx (objRowList t) with
    | none => exact absurd hv hne
    | some j => exact ⟨j, rfl⟩
  obtain ⟨h1, h2, h3⟩ := firstNegIdx_some hf
  rw [objRowList_length] at h1
  constructor
  · refine ⟨jB, ?_, h1, ?_, ?_⟩
    · unfold enteringVar
      rw [hf]
      rfl
    · rw [objRowList_getD h1] at h2
      exact h2
    · intro j hj
      have := h3 j hj
      rwa [objRowList_getD (by omega)] at this
  · have hlen : (objRowList t).length = t.w := objRowList_length t
    have hnil : objRowList t ≠ [] := by
      intro h
      rw [h] at hlen
      simp at hlen
      omega
    have hclt : argminIdx (objRowList t) < t.w := by
      have := argminIdx_lt_length hnil
      omega
    refine ⟨argminIdx (objRowList t), ?_, hclt, ?_, ?_⟩
    · unfold enteringVar
      rw [hf]
      simp
    · intro j hj
      have := argminIdx_le (objRowList t) 0 j (by omega)
      rwa [objRowList_getD hclt, objRowList_getD hj] at this
    · intro j hj
      have := argminIdx_first (objRowList t) 0 j hj
      rwa [objRowList_getD hclt, objRowList_getD (by omega)] at this

/-- C5 witness: a tableau where the two rules pick different columns. -/
theorem entering_selection_witness :
    (∃ j, j < exEnter.w ∧ exEnter.e 0 j < 0) ∧
    ((∃ cB, enteringVar exEnter true = some cB ∧ cB < exEnter.w ∧
        exEnter.e 0 cB < 0 ∧ (∀ j, j < cB → 0 ≤ exEnter.e 0 j)) ∧
      (∃ cS, enteringVar exEnter false = some cS ∧ cS < exEnter.w ∧
        (∀ j, j < exEnter.w → exEnter.e 0 cS ≤ exEnter.e 0 j) ∧
        (∀ j, j < cS → exEnter.e 0 cS < exEnter.e 0 j))) :=
  ⟨by decide, entering_selection exEnter (by decide)⟩

/-- C6: the departing row minimises the ratio list (RHS/coefficient for
rows with positive entering-column coefficient, the `+∞` sentinel
otherwise); under Bland's rule, among the rows tied at the minimum ratio the
selected row is the one whose current basic variable has the smallest
column index. -/
theorem departing_selection (t : Tab) (c : ℕ) (hm : 1 ≤ t.m)
    (hnd : (tabBasis t).Nodup) :
    (departingVar t c false < t.m ∧
      (∀ i, i < t.m →
        (ratioList t c).getD (departingVar t c false) ⊤ ≤ (ratioList t c).getD i ⊤)) ∧
    (departingVar t c true < t.m ∧
      (ratioList t c).getD (departingVar t c true) ⊤ =
        (ratioList t c).getD (departingVar t c false) ⊤ ∧
      (∀ i, i < t.m →
        (ratioList t c).getD i ⊤ = (ratioList t c).getD (departingVar t c false) ⊤ →
        (tabBasis t).getD (departingVar t c true) (-1) ≤ (tabBasis t).getD i (-1))) := by
  have hanti : Std.Antisymm (fun x1 x2 : ℤ => x1 ≤ x2) :=
    ⟨fun h1 h2 => le_antisymm h1 h2⟩
  have hlen : (ratioList t c).length = t.m := ratioList_length t c
  have hblen : (tabBasis t).length = t.m := tabBasis_length t
  have hnil : ratioList t c ≠ [] := by
    intro h
    rw [h] at hlen
    simp at hlen
    omega
  have hd0 : argminIdx (ratioList t c) < t.m := by
    have := argminIdx_lt_length hnil
    omega
  have hstd : departingVar t c false = argminIdx (ratioList t c) := rfl
  have hminp : ∀ i, i < t.m →
      (ratioList t c).getD (argminIdx (ratioList t c)) ⊤ ≤ (ratioList t c).getD i ⊤ := by
    intro i hi
    exact argminIdx_le (ratioList t c) ⊤ i (by omega)
  refine ⟨⟨by rw [hstd]; exact hd0, by rw [hstd]; exact hminp⟩, ?_⟩
  have hblandeq : departingVar t c true =
      (tabBasis t).indexOf
        ((((List.range t.m).filter
            (fun i => (ratioList t c).getD i ⊤ == (ratioList t c).getD (argminIdx (ratioList t c)) ⊤)).map
          (fun i => (tabBasis t).getD i (-1))).min?.getD (-1)) := rfl
  have htied0 : argminIdx (ratioList t c) ∈ (List.range t.m).filter
      (fun i => (ratioList t c).getD i ⊤ == (ratioList t c).getD (argminIdx (ratioList t c)) ⊤) := by
    rw [List.mem_filter]
    exact ⟨List.mem_range.mpr hd0, beq_iff_eq.mpr rfl⟩
  obtain ⟨v, hvmin⟩ : ∃ v, (((List.range t.m).filter
      (fun i => (ratioList t c).getD i ⊤ == (ratioList t c).getD (argminIdx (ratioList t c)) ⊤)).map
        (fun i => (tabBasis t).getD i (-1))).min? = some v := by
    cases hv : (((List.range t.m).filter
        (fun i => (ratioList t c).getD i ⊤ == (ratioList t c).getD (argminIdx (ratioList t c)) ⊤)).map
          (fun i => (tabBasis t).getD i (-1))).min? with
    | none =>
      rw [List.min?_eq_none_iff, List.map_eq_nil_iff] at hv
      rw [hv] at htied0
      exact absurd htied0 (by simp)
    | some v => exact ⟨v, rfl⟩
  obtain ⟨hvmem, hvle⟩ := (List.min?_eq_some_iff (fun a => le_refl a)
    (fun a b => min_choice a b) (fun a b c => le_min_iff)).mp hvmin
  obtain ⟨istar, histar, hvi⟩ := List.mem_map.mp hvmem
  have histar2 := histar
  rw [List.mem_filter, List.mem_range] at histar2
  have histar_lt : istar < t.m := histar2.1
  have histar_tie : (ratioList t c).getD istar ⊤ =
      (ratioList t c).getD (argminIdx (ratioList t c)) ⊤ := beq_iff_eq.mp histar2.2
  have hvbas : v ∈ tabBasis t := by
    rw [← hvi, List.getD_eq_getElem _ _ (show istar < (tabBasis t).length by omega)]
    exact List.getElem_mem _
  have hidx_lt : (tabBasis t).indexOf v < (tabBasis t).length :=
    List.indexOf_lt_length.mpr hvbas
  have hilen : istar < (tabBasis t).length := by omega
  have hidx_eq : (tabBasis t).indexOf v = istar := by
    have h1 : (tabBasis t)[(tabBasis t).indexOf v] = v := List.getElem_indexOf hidx_lt
    have h2 : (tabBasis t)[istar] = v := by
      rw [← List.getD_eq_getElem _ (-1) hilen]
      exact hvi
    exact hnd.getElem_inj_iff.mp (h1.trans h2.symm)
  have hBv : departingVar t c true = (tabBasis t).indexOf v := by
    rw [hblandeq, hvmin]
    rfl
  have hBi : departingVar t c true = istar := hBv.trans hidx_eq
  refine ⟨by rw [hBi]; exact histar_lt, by rw [hBi, hstd]; exact histar_tie, ?_⟩
  intro i hi htiei
  have himem : i ∈ (List.range t.m).filter
      (fun i => (ratioList t c).getD i ⊤ == (ratioList t c).getD (argminIdx (ratioList t c)) ⊤) := by
    rw [List.mem_filter]
    refine ⟨List.mem_range.mpr hi, beq_iff_eq.mpr ?_⟩
    rw [← hstd]
    exact htiei
  have hival : (tabBasis t).getD i (-1) ∈ (((List.range t.m).filter
      (fun i => (ratioList t c).getD i ⊤ == (ratioList t c).getD (argminIdx (ratioList t c)) ⊤)).map
        (fun i => (tabBasis t).getD i (-1))) := List.mem_map.mpr ⟨i, himem, rfl⟩
  have hvlei := hvle _ hival
  rw [hBi, ← hidx_eq]
  rw [List.getD_eq_getElem _ _ hidx_lt, List.getElem_indexOf hidx_lt]
  exact hvlei

/-- C6 witness: a tableau with a ratio tie between two rows with distinct
basic variables. -/
theorem departing_selection_witness :
    1 ≤ exRatio.m ∧ (tabBasis exRatio).Nodup ∧
    ((departingVar exRatio 0 false < exRatio.m ∧
      (∀ i, i < exRatio.m →
        (ratioList exRatio 0).getD (departingVar exRatio 0 false) ⊤ ≤
          (ratioList exRatio 0).getD i ⊤)) ∧
    (departingVar exRatio 0 true < exRatio.m ∧
      (ratioList exRatio 0).getD (departingVar exRatio 0 true) ⊤ =
        (ratioList exRatio 0).getD (departingVar exRatio 0 false) ⊤ ∧
      (∀ i, i < exRatio.m →
        (ratioList exRatio 0).getD i ⊤ =
          (ratioList exRatio 0).getD (departingVar exRatio 0 false) ⊤ →
        (tabBasis exRatio).getD (departingVar exRatio 0 true) (-1) ≤
          (tabBasis exRatio).getD i (-1)))) :=
  ⟨by decide, by decide, departing_selection exRatio 0 (by decide) (by decide)⟩

unseal Rat.mul Rat.add Rat.sub Rat.inv in
/-- C7 counterexample: at `exPiv` the pivot is taken at row 1, column 0
(pivot entry 2 ≠ 0); column 1 is a basic variable's unit column before the
pivot (it is not the pivot column), yet after `pivotAround` it is no longer
a unit vector — the departing variable's column is destroyed, so a column
that was a unit vector for a currently-basic variable before the pivot need
not remain one. -/
theorem pivot_departing_unit_lost :
    exPiv.e 1 0 ≠ 0 ∧ (1 : ℕ) ≠ (0 : ℕ) ∧ IsUnitColP exPiv 1 1 ∧
    ¬ IsUnitColP (pivotAround exPiv 1 0) 1 1 := by
  refine ⟨by decide, by decide, isUnitCol_iff.mp (by decide), fun h => ?_⟩
  exact absurd (isUnitCol_iff.mpr h) (by decide)

/-- C7 (amended): `pivotAround(r, c)` divides the pivot row by the pivot
entry and subtracts multiples of it from every other row, after which column
`c` is the unit vector with its 1 in row `r`; and every other column that
was a unit vector with its 1 in a row OTHER THAN the pivot row remains a
unit vector (the departing variable's own column, with its 1 in the pivot
row, is exempt — the claim's unrestricted version is refuted by the
counterexample above). -/
theorem pivotAround_gauss_jordan (t : Tab) (r c : ℕ) (hr : r ≤ t.m)
    (hp : t.e r c ≠ 0) :
    (∀ i j, (pivotAround t r c).e i j =
      if i = r then t.e r j / t.e r c
      else t.e i j - (t.e r j / t.e r c) * t.e i c) ∧
    (∀ k, (pivotAround t r c).e k c = if k = r then 1 else 0) ∧
    (∀ j i, j ≠ c → i ≠ r → IsUnitColP t j i →
      IsUnitColP (pivotAround t r c) j i) := by
  exact ⟨fun i j => rfl, pivotAround_unit_col hp,
    fun j i hjc hir hu => pivotAround_preserves_unit hr hir hu⟩

/-- C7 witness: the amended statement applied at the concrete pivot of
`exPiv`. -/
theorem pivotAround_gauss_jordan_witness :
    (1 ≤ exPiv.m ∧ exPiv.e 1 0 ≠ 0) ∧
    (∀ k, (pivotAround exPiv 1 0).e k 0 = if k = 1 then 1 else 0) :=
  ⟨⟨by decide, by decide⟩,
    (pivotAround_gauss_jordan exPiv 1 0 (by decide) (by decide)).2.1⟩

/-- C8 counterexample: at `exBasisRhs` no variable column is a unit vector
for constraint row 1, yet `basis` records index 1 — the RHS column — so the
scan does NOT exclude the RHS column and the claimed `-1` is not returned. -/
theorem basis_records_rhs_column :
    exBasisRhs.w = 1 ∧ tabBasis exBasisRhs = [(1 : ℤ)] ∧
    (∀ j, j < exBasisRhs.w → ¬ IsUnitColP exBasisRhs j 1) := by
  refine ⟨rfl, by decide, ?_⟩
  intro j hj
  have hj1 : j < 1 := hj
  obtain rfl : j = 0 := by omega
  intro h
  exact absurd (isUnitCol_iff.mpr h) (by decide)

/-- C8 (amended): for each constraint row the `basis` property scans ALL
columns — the RHS column included — and records the LAST (greatest) column
index matching the unit vector for that row, or `-1` when no column at all
matches. -/
theorem basis_derivation_characterization (t : Tab) (i : ℕ) (hi : i < t.m) :
    ((tabBasis t).getD i (-1) = -1 ↔ ∀ j, j ≤ t.w → ¬ IsUnitColP t j (i + 1)) ∧
    (∀ j : ℕ, (tabBasis t).getD i (-1) = (j : ℤ) →
      j ≤ t.w ∧ IsUnitColP t j (i + 1) ∧
        ∀ k, j < k → k ≤ t.w → ¬ IsUnitColP t k (i + 1)) := by
  rw [tabBasis_getD hi]
  constructor
  · cases hb : basisIdx t i with
    | none =>
      constructor
      · intro _
        exact basisIdx_none hb
      · intro _
        rfl
    | some j0 =>
      constructor
      · intro hcon
        have hx : (j0 : ℤ) = -1 := hcon
        omega
      · intro hall
        obtain ⟨hj0, hu0, _⟩ := basisIdx_some hb
        exact absurd hu0 (hall j0 hj0)
  · intro j hj
    cases hb : basisIdx t i with
    | none =>
      rw [hb] at hj
      have hx : (-1 : ℤ) = (j : ℤ) := hj
      omega
    | some j0 =>
      rw [hb] at hj
      have hx : (j0 : ℤ) = (j : ℤ) := hj
      have hx2 : j0 = j := by omega
      subst hx2
      exact basisIdx_some hb

/-- C8 witness: the amended characterization applied at `exBasisRhs`, whose
recorded basis entry is the RHS column index 1. -/
theorem basis_derivation_characterization_witness :
    (0 < exBasisRhs.m) ∧
    (((tabBasis exBasisRhs).getD 0 (-1) = -1 ↔
        ∀ j, j ≤ exBasisRhs.w → ¬ IsUnitColP exBasisRhs j 1) ∧
      (∀ j : ℕ, (tabBasis exBasisRhs).getD 0 (-1) = (j : ℤ) →
        j ≤ exBasisRhs.w ∧ IsUnitColP exBasisRhs j 1 ∧
          ∀ k, j < k → k ≤ exBasisRhs.w → ¬ IsUnitColP exBasisRhs k 1)) :=
  ⟨by decide, basis_derivation_characterization exBasisRhs 0 (by decide)⟩

/-- C3: evaluation of `drop_artificial_variables` at a phase-1-terminal
tableau whose artificial column 1 is still basic with an RHS value of 0.
The claim (and the spec's intended semantics) requires the artificial
columns to be removed and the call to return normally, since the RHS value
is not strictly positive; the source instead reads the undefined name `v`
(`self.tab[v][-1]`) and crashes with a `NameError` the moment any artificial
variable is found in the basis, before any RHS test. -/
theorem drop_artificial_crashes_on_basic_artificial :
    tabBasis exDrop = [(1 : ℤ)] ∧ exDrop.e 1 exDrop.w = 0 ∧
    dropArtificials exDrop [1] [3] = DropRes.crash :=
  ⟨by decide, by decide, rfl⟩

/-- C9: the solution built from a terminal state: for Optimal the
assignment has length `max(basis) + 1`, holds `RHS(row)` at every basic
index and `0` everywhere else, with the objective value copied; for
Unbounded the objective value is the `+∞` sentinel with no assignment; for
Infeasible the `NaN` sentinel with no assignment. -/
theorem solution_builder_spec (t : Tab)
    (hpos : ∀ x ∈ tabBasis t, 0 ≤ x) (hnd : (tabBasis t).Nodup) :
    (mkSolution TState.Optimal t).objValue = ObjVal.q (t.e 0 t.w) ∧
    (∃ l, (mkSolution TState.Optimal t).assignment = some l ∧
      l.length = (pyMax (tabBasis t) + 1).toNat ∧
      (∀ i, i < t.m →
        l.getD ((tabBasis t).getD i 0).toNat 0 = t.e (i + 1) t.w) ∧
      (∀ j, j < l.length → ((j : ℤ) ∉ tabBasis t) → l.getD j 0 = 0)) ∧
    mkSolution TState.Unbounded t = ⟨TState.Unbounded, ObjVal.posInf, none⟩ ∧
    mkSolution TState.Infeasible t = ⟨TState.Infeasible, ObjVal.nan, none⟩ := by
  have hblen : (tabBasis t).length = t.m := tabBasis_length t
  have hrlen : (rhsList t).length = t.m := by simp [rhsList]
  have hplen : ((tabBasis t).zip (rhsList t)).length = t.m := by
    rw [List.length_zip, hblen, hrlen]
    simp
  refine ⟨rfl, ⟨mkAssignment (tabBasis t) (rhsList t), rfl,
    mkAssignment_length _ _, ?_, ?_⟩, rfl, rfl⟩
  · intro i hi
    unfold mkAssignment
    have hpos' : ∀ p ∈ (tabBasis t).zip (rhsList t), 0 ≤ p.1 := by
      intro p hp
      obtain ⟨p1, p2⟩ := p
      exact hpos p1 (List.of_mem_zip hp).1
    have hpw : List.Pairwise (fun p q : ℤ × ℚ => p.1 ≠ q.1)
        ((tabBasis t).zip (rhsList t)) := by
      rw [List.pairwise_iff_getElem]
      intro a c ha hc hac
      rw [List.getElem_zip, List.getElem_zip]
      intro hcon
      simp only at hcon
      have := hnd.getElem_inj_iff.mp hcon
      omega
    have hrange : ∀ p ∈ (tabBasis t).zip (rhsList t),
        p.1.toNat < (List.replicate (pyMax (tabBasis t) + 1).toNat (0 : ℚ)).length := by
      intro p hp
      obtain ⟨p1, p2⟩ := p
      rw [List.length_replicate]
      have h1 : p1 ∈ tabBasis t := (List.of_mem_zip hp).1
      have h2 := le_pyMax h1
      have h3 := hpos p1 h1
      omega
    have happ := foldl_pySet_getD_at ((tabBasis t).zip (rhsList t))
      (List.replicate (pyMax (tabBasis t) + 1).toNat 0) i (by omega)
      hpos' hpw hrange
    have hpair : ((tabBasis t).zip (rhsList t)).getD i (0, 0) =
        ((tabBasis t).getD i 0, (rhsList t).getD i 0) := by
      rw [List.getD_eq_getElem _ _ (by omega), List.getElem_zip]
      rw [List.getD_eq_getElem _ _ (show i < (tabBasis t).length by omega),
        List.getD_eq_getElem _ _ (show i < (rhsList t).length by omega)]
    rw [hpair] at happ
    have hrhs : (rhsList t).getD i 0 = t.e (i + 1) t.w := by
      unfold rhsList
      rw [getD_map_range _ hi]
    rw [← hrhs]
    exact happ
  · intro j hj hnotin
    unfold mkAssignment
    rw [foldl_pySet_getD_notin _ _ _ ?_]
    · rw [List.getD_eq_getElem?_getD, List.getElem?_getD_replicate_default_eq]
    · intro p hp
      obtain ⟨p1, p2⟩ := p
      have hmem : p1 ∈ tabBasis t := (List.of_mem_zip hp).1
      have hp1 : 0 ≤ p1 := hpos p1 hmem
      refine ⟨hp1, fun hcon => hnotin ?_⟩
      have : (j : ℤ) = p1 := by omega
      rw [this]
      exact hmem

/-- C9 witness: the solution builder at a concrete terminal optimal
tableau with basis `[0]`, objective value 7 and basic value 4. -/
theorem solution_builder_spec_witness :
    ((∀ x ∈ tabBasis exSol, 0 ≤ x) ∧ (tabBasis exSol).Nodup) ∧
    (mkSolution TState.Optimal exSol).objValue = ObjVal.q (exSol.e 0 exSol.w) ∧
    (∃ l, (mkSolution TState.Optimal exSol).assignment = some l ∧
      l.length = (pyMax (tabBasis exSol) + 1).toNat ∧
      (∀ i, i < exSol.m →
        l.getD ((tabBasis exSol).getD i 0).toNat 0 = exSol.e (i + 1) exSol.w) ∧
      (∀ j, j < l.length → ((j : ℤ) ∉ tabBasis exSol) → l.getD j 0 = 0)) ∧
    mkSolution TState.Unbounded exSol =
      ⟨TState.Unbounded, ObjVal.posInf, none⟩ ∧
    mkSolution TState.Infeasible exSol =
      ⟨TState.Infeasible, ObjVal.nan, none⟩ :=
  ⟨⟨by decide, by decide⟩,
    solution_builder_spec exSol (by decide) (by decide)⟩

unseal Rat.mul Rat.add Rat.sub Rat.inv in
/-- C1 counterexample: on a three-pivot problem with a complete initial
basis, `solve(max_iterations := 1)` performs 3 pivots — 1 in the
standard-rule attempt and 2 in the Bland's-rule retry, whose budget is the
default 100 rather than `maxIterations` — exceeding the claimed bound of
`2 × maxIterations = 2`, and still returns an Optimal solution. -/
theorem solve_exceeds_claimed_bound :
    (solveFuel exObj 3 exPC 1 false).pivots = 3 ∧
    ¬ ((solveFuel exObj 3 exPC 1 false).pivots ≤ 2 * 1) ∧
    (solveFuel exObj 3 exPC 1 false).res =
      SolveRes.sol ⟨TState.Optimal, ObjVal.q 3, some [1, 1, 1]⟩ := by
  refine ⟨by decide, ?_, by decide⟩
  have h3 : (solveFuel exObj 3 exPC 1 false).pivots = 3 := by decide
  omega

/-- C1 (amended): for every problem tableau with at least one constraint
row and an objective of matching width, `solve` terminates — recursion
depth 3 suffices, so the embedded fuel is never exhausted — within the
implemented bound of `maxIterations + 100` pivots per phase (the
standard-rule attempt is capped by `maxIterations` and the single
Bland's-rule retry by its default budget of 100, refuting the claimed
`2 × maxIterations`), with at most one phase-1 invocation per top-level
solve; any returned `Solution` carries one of the three defined states
(runs may also end in the `Unsolvable` error or in the artificial-variable
cleanup crash of `drop_artificial_variables`). -/
theorem solve_terminates_and_classifies (obj : List ℚ) (t : Tab)
    (maxIter : ℕ) (useB : Bool) (hm : 1 ≤ t.m) (hobj : obj.length = t.w) :
    (solveFuel obj 3 t maxIter useB).res ≠ SolveRes.fuelOut ∧
    (solveFuel obj 3 t maxIter useB).pivots ≤ 2 * maxIter + 200 ∧
    (solveFuel obj 3 t maxIter useB).phases ≤ 1 ∧
    (∀ s, (solveFuel obj 3 t maxIter useB).res = SolveRes.sol s →
      s.state = TState.Optimal ∨ s.state = TState.Unbounded ∨
        s.state = TState.Infeasible) := by
  obtain ⟨h1, h2, h3⟩ := solveFuel_total_spec obj t maxIter useB hm hobj
  refine ⟨h1, h2, h3, fun s _ => ?_⟩
  cases s.state
  · exact Or.inl rfl
  · exact Or.inr (Or.inl rfl)
  · exact Or.inr (Or.inr rfl)

/-- C1 witness: the amended statement applied to the concrete three-pivot
problem with `maxIterations = 1`. -/
theorem solve_terminates_and_classifies_witness :
    (1 ≤ exPC.m ∧ exObj.length = exPC.w) ∧
    ((solveFuel exObj 3 exPC 1 false).res ≠ SolveRes.fuelOut ∧
      (solveFuel exObj 3 exPC 1 false).pivots ≤ 2 * 1 + 200 ∧
      (solveFuel exObj 3 exPC 1 false).phases ≤ 1 ∧
      (∀ s, (solveFuel exObj 3 exPC 1 false).res = SolveRes.sol s →
        s.state = TState.Optimal ∨ s.state = TState.Unbounded ∨
          s.state = TState.Infeasible)) :=
  ⟨⟨by decide, by decide⟩,
    solve_terminates_and_classifies exObj exPC 1 false (by decide) (by decide)⟩

unseal Rat.mul Rat.add Rat.sub Rat.inv in
/-- C2 counterexample: with `maxIterations = 1` on the three-pivot problem,
the standard-rule attempt exhausts its 1-pivot budget, and the Bland's-rule
retry then performs 2 further pivots — more than the `maxIterations = 1`
the claim says it is limited to — and returns an Optimal solution instead
of failing with `Unsolvable(1)`. -/
theorem solve_retry_ignores_budget :
    (runPivots false exPC 1).2.2 = none ∧
    (solveFuel exObj 3 exPC 1 false).pivots = 3 ∧
    (solveFuel exObj 3 exPC 1 false).res ≠ SolveRes.unsolvable 1 ∧
    (solveFuel exObj 3 exPC 1 false).res =
      SolveRes.sol ⟨TState.Optimal, ObjVal.q 3, some [1, 1, 1]⟩ := by
  refine ⟨by decide, by decide, ?_, by decide⟩
  have h : (solveFuel exObj 3 exPC 1 false).res =
      SolveRes.sol ⟨TState.Optimal, ObjVal.q 3, some [1, 1, 1]⟩ := by decide
  rw [h]
  intro hcon
  exact nomatch hcon

/-- C2 (amended): when the standard-rule pivot loop exhausts its
`maxIterations` budget on a complete-basis tableau, `solve` restarts the
entire solve with Bland's rule forced on but with the DEFAULT budget of
100 (the original `maxIterations` is not passed along); and if that
Bland's-rule attempt exhausts its 100-pivot budget in turn, `solve` fails
with an `Unsolvable` error carrying 100 — the retry's budget — with no
further retry. -/
theorem solve_bland_retry_default_budget (obj : List ℚ) (f : ℕ) (t : Tab)
    (mi : ℕ) (hc : (tabBasis t).contains (-1) = false)
    (hrun : (runPivots false t mi).2.2 = none) :
    (solveFuel obj (f + 1) t mi false =
      ⟨(solveFuel obj f (runPivots false t mi).1 100 true).res,
        (solveFuel obj f (runPivots false t mi).1 100 true).tab,
        mi + (solveFuel obj f (runPivots false t mi).1 100 true).pivots,
        (solveFuel obj f (runPivots false t mi).1 100 true).phases⟩) ∧
    ((tabBasis (runPivots false t mi).1).contains (-1) = false →
      (runPivots true (runPivots false t mi).1 100).2.2 = none →
      (solveFuel obj (f + 1 + 1) t mi false).res = SolveRes.unsolvable 100) := by
  have hkp := runPivots_none_budget false t mi hrun
  constructor
  · rw [solveFuel_succ_noPhase obj f t mi false hc]
    cases hrp : runPivots false t mi with
    | mk t' rest =>
      cases rest with
      | mk kp st? =>
        have hst : st? = none := by rw [hrp] at hrun; exact hrun
        subst hst
        rw [solveLoopStep_eq_exhaust_false hrp]
        have hkp' : kp = mi := by rw [hrp] at hkp; exact hkp
        subst hkp'
        simp only [hrp]
  · intro hc' hrun'
    rw [solveFuel_succ_noPhase obj (f + 1) t mi false hc]
    cases hrp : runPivots false t mi with
    | mk t' rest =>
      cases rest with
      | mk kp st? =>
        have hst : st? = none := by rw [hrp] at hrun; exact hrun
        subst hst
        rw [solveLoopStep_eq_exhaust_false hrp]
        show (solveFuel obj (f + 1) t' 100 true).res = SolveRes.unsolvable 100
        have hc'' : (tabBasis t').contains (-1) = false := by
          rw [hrp] at hc'
          exact hc'
        rw [solveFuel_succ_noPhase obj f t' 100 true hc'']
        have hrun'' : (runPivots true t' 100).2.2 = none := by
          rw [hrp] at hrun'
          exact hrun'
        cases hrp2 : runPivots true t' 100 with
        | mk t'' rest2 =>
          cases rest2 with
          | mk kp2 st2? =>
            have hst2 : st2? = none := by rw [hrp2] at hrun''; exact hrun''
            subst hst2
            rw [solveLoopStep_eq_exhaust_true hrp2]

/-- C2 witness: the amended statement applied to the three-pivot problem
with `maxIterations = 1`, whose standard-rule loop indeed exhausts its
budget. -/
theorem solve_bland_retry_default_budget_witness :
    ((tabBasis exPC).contains (-1) = false ∧
      (runPivots false exPC 1).2.2 = none) ∧
    ((solveFuel exObj 3 exPC 1 false =
      ⟨(solveFuel exObj 2 (runPivots false exPC 1).1 100 true).res,
        (solveFuel exObj 2 (runPivots false exPC 1).1 100 true).tab,
        1 + (solveFuel exObj 2 (runPivots false exPC 1).1 100 true).pivots,
        (solveFuel exObj 2 (runPivots false exPC 1).1 100 true).phases⟩) ∧
    ((tabBasis (runPivots false exPC 1).1).contains (-1) = false →
      (runPivots true (runPivots false exPC 1).1 100).2.2 = none →
      (solveFuel exObj 4 exPC 1 false).res = SolveRes.unsolvable 100)) :=
  ⟨⟨by decide, by decide⟩,
    solve_bland_retry_default_budget exObj 2 exPC 1 (by decide) (by decide)⟩
